import Mathlib

/-!
# CompliScan — Field Extraction, Normalization & Compliance Scoring Engine

Shallow embedding of the core of the CompliScan backend:

* `src/backend/schema.js` — `MANDATORY_FIELDS`, `SUPPLEMENTAL_FIELDS` and
  `createNormalizedLabel` (normalizer / validator / compliance scorer);
* `src/backend/ocr-processor.js` — `FIELD_PATTERNS` and `extractField`
  (pattern-cascade extractor);
* `src/backend/server.js` — the final clean-up/truncation step of
  `scrapeProduct` (structured-source extraction).

JavaScript numbers are modelled as exact rationals (`ℚ`), JavaScript strings
as Lean strings (one `Char` per UTF-16 unit of the texts that actually occur),
and JavaScript values that may be `null`/`undefined`/non-string as the
`RawValue` sum type.  Regular expressions are modelled by executable matchers
that follow the JavaScript semantics (leftmost match, alternation tried left
to right, greedy quantifiers with backtracking).  IO-dependent metadata of the
label (timestamp, source tag, debug info) is irrelevant to every property
below and is omitted from the record.
-/

/-! ## JavaScript string primitives -/

/-- The JavaScript whitespace class `\s` (also used by `String.prototype.trim`):
space, tab, line terminators, vertical tab, form feed, NBSP, the Unicode
space separators, and the BOM. -/
def jsWs (c : Char) : Bool :=
  c == ' ' || c == '\t' || c == '\n' || c.toNat == 0x0b || c.toNat == 0x0c ||
  c == '\r' || c.toNat == 0xa0 || c.toNat == 0x1680 ||
  (0x2000 ≤ c.toNat && c.toNat ≤ 0x200a) ||
  c.toNat == 0x2028 || c.toNat == 0x2029 || c.toNat == 0x202f ||
  c.toNat == 0x205f || c.toNat == 0x3000 || c.toNat == 0xfeff

/-- JavaScript line terminators (the characters the regex `.` does not match,
and after which a multiline `^` matches). -/
def isLineTerm (c : Char) : Bool :=
  c == '\n' || c == '\r' || c.toNat == 0x2028 || c.toNat == 0x2029

/-- Drop trailing characters satisfying `jsWs`. -/
def dropTrailWs (cs : List Char) : List Char :=
  (cs.reverse.dropWhile jsWs).reverse

/-- `String.prototype.trim` on the character list. -/
def trimL (cs : List Char) : List Char :=
  dropTrailWs (cs.dropWhile jsWs)

/-- `String.prototype.trim`. -/
def jsTrim (s : String) : String := ⟨trimL s.toList⟩

/-- `String.prototype.substring(0, n)`. -/
def truncateStr (n : Nat) (s : String) : String := ⟨s.toList.take n⟩

/-- `String.prototype.toLowerCase` (ASCII range, which is all the sentinel
checks compare against). -/
def lowerStr (s : String) : String := ⟨s.toList.map Char.toLower⟩

/-- Does the list start with the given pattern? -/
def startsWithL : List Char → List Char → Bool
  | _, [] => true
  | [], _ :: _ => false
  | c :: cs, d :: ds => c == d && startsWithL cs ds

/-- `String.prototype.includes`: does `cs` contain `pat` as a contiguous
sub-list? -/
def hasSubL : List Char → List Char → Bool
  | [], pat => pat.isEmpty
  | c :: cs, pat => startsWithL (c :: cs) pat || hasSubL cs pat

/-- `Math.round`: round half towards positive infinity. -/
def jsRound (q : ℚ) : ℤ := ⌊q + 1/2⌋

/-- `Math.max` on rationals (executable form). -/
def jsMaxQ (a b : ℚ) : ℚ := if a ≤ b then b else a

/-- `Math.min` on rationals (executable form). -/
def jsMinQ (a b : ℚ) : ℚ := if a ≤ b then a else b

/-- `Math.max` on integer results (executable form). -/
def jsMaxZ (a b : ℤ) : ℤ := if a ≤ b then b else a

theorem jsMaxQ_eq (a b : ℚ) : jsMaxQ a b = max a b := by
  unfold jsMaxQ
  rcases le_total a b with h | h
  · rw [if_pos h, max_eq_right h]
  · rcases eq_or_lt_of_le h with rfl | hlt
    · simp
    · rw [if_neg (by linarith), max_eq_left h]

theorem jsMinQ_eq (a b : ℚ) : jsMinQ a b = min a b := by
  unfold jsMinQ
  rcases le_total a b with h | h
  · rw [if_pos h, min_eq_left h]
  · rcases eq_or_lt_of_le h with rfl | hlt
    · simp
    · rw [if_neg (by linarith), min_eq_right h]

theorem jsMaxZ_eq (a b : ℤ) : jsMaxZ a b = max a b := by
  unfold jsMaxZ
  rcases le_total a b with h | h
  · rw [if_pos h, max_eq_right h]
  · rcases eq_or_lt_of_le h with rfl | hlt
    · simp
    · rw [if_neg (by omega), max_eq_left h]

/-! ## Field Schema Registry (`schema.js`, `MANDATORY_FIELDS`) -/

/-- The six mandatory Legal Metrology fields, in the declaration order of
the `MANDATORY_FIELDS` object. -/
inductive FieldId where
  | manufacturer
  | net_quantity
  | MRP
  | consumer_care
  | date_of_manufacture
  | country_of_origin
deriving DecidableEq, Repr, Fintype

/-- Object-key iteration order of `MANDATORY_FIELDS` (JavaScript preserves
insertion order for string keys). -/
def FieldId.all : List FieldId :=
  [.manufacturer, .net_quantity, .MRP, .consumer_care, .date_of_manufacture,
   .country_of_origin]

/-- Index of a field in the declaration order. -/
def fieldIdx : FieldId → Nat
  | .manufacturer => 0
  | .net_quantity => 1
  | .MRP => 2
  | .consumer_care => 3
  | .date_of_manufacture => 4
  | .country_of_origin => 5

/-- The JavaScript property name of each mandatory field. -/
def fieldName : FieldId → String
  | .manufacturer => "manufacturer"
  | .net_quantity => "net_quantity"
  | .MRP => "MRP"
  | .consumer_care => "consumer_care"
  | .date_of_manufacture => "date_of_manufacture"
  | .country_of_origin => "country_of_origin"

/-- `MANDATORY_FIELDS[f].maxLength`. -/
def maxLengthOf : FieldId → Nat
  | .manufacturer => 200
  | .net_quantity => 50
  | .MRP => 50
  | .consumer_care => 150
  | .date_of_manufacture => 50
  | .country_of_origin => 100

/-- `MANDATORY_FIELDS[f].description`. -/
def descriptionOf : FieldId → String
  | .manufacturer => "Name and address of manufacturer, packer, or importer"
  | .net_quantity => "Net quantity in standard units (weight, measure, or number)"
  | .MRP => "Maximum Retail Price inclusive of all taxes"
  | .consumer_care => "Consumer care details (phone, email, or address)"
  | .date_of_manufacture => "Date of manufacture, packing, or import"
  | .country_of_origin => "Country of origin or manufacture"

/-! ### The six validation regexes (`MANDATORY_FIELDS[f].validation.test`)

Each validation pattern is compiled to an executable containment test with
the JavaScript `RegExp.prototype.test` semantics (unanchored search unless
the pattern is anchored with carets/dollars). -/

def isAsciiLetter (c : Char) : Bool :=
  ('a' ≤ c && c ≤ 'z') || ('A' ≤ c && c ≤ 'Z')

/-- Character class of the regex dot: any character except a line
terminator. -/
def reDotCh (c : Char) : Bool := !isLineTerm c

/-- Regex for manufacturer: an anchored pattern matching a whole string of
at least three non-line-terminator characters (min-3-chars rule). -/
def validManufacturer (s : String) : Bool :=
  s.toList.length ≥ 3 && s.toList.all reDotCh

/-- The unit alternatives of the net-quantity validation pattern, in the
source order of the alternation (with the optional plural marker expanded). -/
def nqUnitWords : List (List Char) :=
  ["g", "kg", "ml", "l", "gm", "gms", "liter", "liters", "piece", "pieces",
   "pcs", "tablet", "tablets", "no", "nos"].map String.toList

/-- Case-insensitive: is `pat` a prefix of `cs`? -/
def ciHasPfx : List Char → List Char → Bool
  | [], _ => true
  | _ :: _, [] => false
  | p :: ps, c :: cs => (Char.toLower c == Char.toLower p) && ciHasPfx ps cs

/-- Regex for net quantity: one or more digits, optional whitespace, then one
of the unit words, case-insensitively, anywhere in the string.  Since the
pattern ends right after the unit alternation, a match exists iff some digit
position is followed (after the remaining digits and whitespace) by one of
the unit words; maximal-munch is complete here because no unit word starts
with a digit or whitespace. -/
def validNetQuantityL : List Char → Bool
  | [] => false
  | c :: cs =>
    (c.isDigit &&
      (nqUnitWords.any fun u =>
        ciHasPfx u ((cs.dropWhile Char.isDigit).dropWhile jsWs))) ||
    validNetQuantityL cs

def validNetQuantity (s : String) : Bool := validNetQuantityL s.toList

/-- Regex for MRP: either an optional rupee sign, whitespace and a number, or
a case-insensitive rupee abbreviation, optional dot, whitespace and a number,
anywhere in the string.  The trailing optional decimal part never affects
whether a match exists. -/
def validMRPL : List Char → Bool
  | [] => false
  | c :: cs =>
    (match (if c == '₹' then cs else c :: cs).dropWhile jsWs with
     | d :: _ => d.isDigit
     | [] => false) ||
    (ciHasPfx ['r', 's'] (c :: cs) &&
      (match (match (c :: cs).drop 2 with
              | '.' :: t => t
              | t => t).dropWhile jsWs with
       | d :: _ => d.isDigit
       | [] => false)) ||
    validMRPL cs

def validMRP (s : String) : Bool := validMRPL s.toList

/-- Regex for consumer care: ten consecutive digits, or an at sign, or three
consecutive digits, anywhere in the string. -/
def validConsumerCareL : List Char → Bool
  | [] => false
  | c :: cs =>
    (c.isDigit && 1 + (cs.takeWhile Char.isDigit).length ≥ 10) ||
    c == '@' ||
    (c.isDigit && 1 + (cs.takeWhile Char.isDigit).length ≥ 3) ||
    validConsumerCareL cs

def validConsumerCare (s : String) : Bool := validConsumerCareL s.toList

/-- The date separators: slash, hyphen-minus, dot. -/
def isSepCh (c : Char) : Bool := c == '/' || c == '-' || c == '.'

/-- Consume exactly `n` characters satisfying `p`; return the remainder. -/
def takeExact (p : Char → Bool) : Nat → List Char → Option (List Char)
  | 0, cs => some cs
  | _ + 1, [] => none
  | n + 1, c :: cs => if p c then takeExact p n cs else none

/-- First alternative of the date regex at a given position: one or two
digits, separator, one or two digits, separator, at least two digits. -/
def dateAlt1At (cs : List Char) : Bool :=
  [2, 1].any fun a =>
    match takeExact Char.isDigit a cs with
    | some (s1 :: r1) =>
      isSepCh s1 &&
        ([2, 1].any fun b =>
          match takeExact Char.isDigit b r1 with
          | some (s2 :: r2) => isSepCh s2 && (takeExact Char.isDigit 2 r2).isSome
          | _ => false)
    | _ => false

/-- Second alternative of the date regex at a given position: at least three
ASCII letters (case-insensitive class), optional whitespace, then at least
two digits. -/
def dateAlt2At (cs : List Char) : Bool :=
  (cs.takeWhile isAsciiLetter).length ≥ 3 &&
    (takeExact Char.isDigit 2
      ((cs.dropWhile isAsciiLetter).dropWhile jsWs)).isSome

/-- Regex for date of manufacture: a numeric `d/m/y`-style date or a
month-name-plus-year, anywhere in the string. -/
def validDateL : List Char → Bool
  | [] => false
  | c :: cs => dateAlt1At (c :: cs) || dateAlt2At (c :: cs) || validDateL cs

def validDate (s : String) : Bool := validDateL s.toList

/-- Character class of the country validation: ASCII letters (either case,
the pattern carries the case-insensitive flag) and whitespace. -/
def azWsCh (c : Char) : Bool := isAsciiLetter c || jsWs c

/-- Regex for country of origin: an anchored pattern matching a whole string
of at least two letters/whitespace characters. -/
def validCountry (s : String) : Bool :=
  s.toList.length ≥ 2 && s.toList.all azWsCh

/-- `MANDATORY_FIELDS[f].validation.test`. -/
def validationOf : FieldId → String → Bool
  | .manufacturer => validManufacturer
  | .net_quantity => validNetQuantity
  | .MRP => validMRP
  | .consumer_care => validConsumerCare
  | .date_of_manufacture => validDate
  | .country_of_origin => validCountry

/-! ## Raw extracted values -/

/-- A raw JavaScript value handed to the normalizer: a string, a number (for
example a numeric JSON-LD price), a boolean, `null`, or `undefined`. -/
inductive RawValue where
  | vstr (s : String)
  | vnum (q : ℚ)
  | vbool (b : Bool)
  | vnull
  | vundef
deriving DecidableEq, Repr

/-- Is the value a string (`typeof value === 'string'`)? -/
def RawValue.isStr : RawValue → Bool
  | .vstr _ => true
  | _ => false

/-- The JavaScript guard `value && typeof value === 'string'`: returns the
string when the value is a truthy (non-empty) string. -/
def RawValue.asTruthyString : RawValue → Option String
  | .vstr s => if s == "" then none else some s
  | _ => none

/-! ## Normalizer / Validator / Scorer (`schema.js`, `createNormalizedLabel`) -/

/-- A violation record pushed by `createNormalizedLabel`. -/
structure Violation where
  field : FieldId
  vtype : String
  severity : String
  message : String
deriving DecidableEq, Repr

/-- The `missing`/`high` violation for a mandatory field. -/
def missingViolation (f : FieldId) : Violation :=
  ⟨f, "missing", "high", descriptionOf f ++ " is required but missing"⟩

/-- The `format`/`medium` violation for a present value failing validation. -/
def formatViolation (f : FieldId) (v : String) : Violation :=
  ⟨f, "format", "medium",
    descriptionOf f ++ " format is invalid: \"" ++ v ++ "\""⟩

/-- The confidence default `options.fieldConfidences?.[fieldName] || 0.5`:
an absent entry, like a falsy (zero) one, becomes 0.5. -/
def confDefault : Option ℚ → ℚ
  | none => 1/2
  | some x => if x = 0 then 1/2 else x

/-- The sentinel-suppression test of `createNormalizedLabel`: too short,
contains a not-available marker case-insensitively, or is a lone dash. -/
def isSentinelValue (v : String) : Bool :=
  v.toList.length < 2 ||
  hasSubL (lowerStr v).toList "not available".toList ||
  hasSubL (lowerStr v).toList "n/a".toList ||
  v == "-" || v == "—"

/-- The value part of the per-field sanitization: trim, truncate to the
field's maxLength, then suppress sentinel values; non-strings and empty
strings become null. -/
def sanitizeValue (f : FieldId) (raw : RawValue) : Option String :=
  match raw.asTruthyString with
  | none => none
  | some s =>
    let v := truncateStr (maxLengthOf f) (jsTrim s)
    if isSentinelValue v then none else some v

/-- Outcome of one iteration of the mandatory-field loop. -/
structure FieldResult where
  value : Option String
  confidence : ℚ
  fviolations : List Violation
deriving Repr

/-- One iteration of the mandatory-field loop of `createNormalizedLabel`:
sanitize the raw value, penalize and record a `format` violation when a
surviving value fails the schema pattern, then record a `missing` violation
when the field ends up null (or trims to empty). -/
def processMandatoryField (f : FieldId) (raw : RawValue) (cIn : Option ℚ) :
    FieldResult :=
  let conf0 := confDefault cIn
  let vcf : Option String × ℚ × List Violation :=
    match raw.asTruthyString with
    | some s =>
      let v := truncateStr (maxLengthOf f) (jsTrim s)
      if isSentinelValue v then (none, conf0, [])
      else if validationOf f v then (some v, conf0, [])
      else (some v, jsMaxQ 0 (conf0 - 3/10), [formatViolation f v])
    | none => (none, conf0, [])
  let missing : List Violation :=
    match vcf.1 with
    | none => [missingViolation f]
    | some v => if v == "" || jsTrim v == "" then [missingViolation f] else []
  ⟨vcf.1, vcf.2.1, vcf.2.2 ++ missing⟩

/-- The supplemental-field loop (`SUPPLEMENTAL_FIELDS`, only `product_name`,
maxLength 200): sanitize only, no violations, no confidence. -/
def sanitizeSupplemental (raw : RawValue) : Option String :=
  match raw.asTruthyString with
  | none => none
  | some s =>
    let v := truncateStr 200 (jsTrim s)
    if isSentinelValue v then none else some v

/-- The normalized ParsedLabel (the fields of the returned object that the
verified properties are about; the timestamp/source/debug metadata is
omitted). -/
structure NormalizedLabel where
  fields : FieldId → Option String
  product_name : Option String
  fieldConfidences : FieldId → ℚ
  compliance_score : ℤ
  status : String
  violations : List Violation
  fields_present : Nat
  fields_total : Nat

/-- The normalized value of one mandatory field (the loop body's value
computation). -/
def labelVals (rawData : FieldId → RawValue) : FieldId → Option String :=
  fun f => sanitizeValue f (rawData f)

/-- The recorded confidence of one mandatory field. -/
def labelConf (rawData : FieldId → RawValue)
    (optFieldConfidences : FieldId → Option ℚ) : FieldId → ℚ :=
  fun f => (processMandatoryField f (rawData f) (optFieldConfidences f)).confidence

/-- The violations array: the per-field violations in the object-key
iteration order of `MANDATORY_FIELDS`. -/
def codeViolations (rawData : FieldId → RawValue)
    (optFieldConfidences : FieldId → Option ℚ) : List Violation :=
  FieldId.all.flatMap fun f =>
    (processMandatoryField f (rawData f) (optFieldConfidences f)).fviolations

/-- The `presentFields` count: fields whose normalized value is truthy and
trims to a truthy string. -/
def codePresentFields (normalized : FieldId → Option String) : Nat :=
  (FieldId.all.filter fun f =>
    match normalized f with
    | some v => !(v == "") && !(jsTrim v == "")
    | none => false).length

/-- The `presentConfidences` array: confidences of the fields whose
normalized value is truthy. -/
def codePresentConfidences (normalized : FieldId → Option String)
    (confs : FieldId → ℚ) : List ℚ :=
  (FieldId.all.filter fun f =>
    match normalized f with
    | some v => !(v == "")
    | none => false).map confs

/-- The `avgConfidence` computation. -/
def codeAvgConfidence (normalized : FieldId → Option String)
    (confs : FieldId → ℚ) : ℚ :=
  let l := codePresentConfidences normalized confs
  if l.length > 0 then l.sum / (l.length : ℚ) else 0

/-- The compliance score:
`Math.max(0, Math.round(baseScore - confidencePenalty))`. -/
def codeComplianceScore (normalized : FieldId → Option String)
    (confs : FieldId → ℚ) : ℤ :=
  let baseScore : ℚ :=
    (codePresentFields normalized : ℚ) / (FieldId.all.length : ℚ) * 100
  let avgConfidence := codeAvgConfidence normalized confs
  let confidencePenalty : ℚ :=
    if avgConfidence < 3/5 then (3/5 - avgConfidence) * 30 else 0
  jsMaxZ 0 (jsRound (baseScore - confidencePenalty))

/-- The status classification of `createNormalizedLabel`. -/
def codeStatus (normalized : FieldId → Option String) (confs : FieldId → ℚ)
    (violations : List Violation) : String :=
  let highSeverityViolations : Nat :=
    (violations.filter fun v => v.severity == "high").length
  if highSeverityViolations = 0 then
    if codeAvgConfidence normalized confs > 7/10 then "approved"
    else "needs_review"
  else if (codePresentFields normalized : ℚ) ≥ (FieldId.all.length : ℚ) * (7/10)
    then "needs_review"
  else "failed"

/-- `createNormalizedLabel(rawData, options)` of `schema.js`.  `rawData` is
split into the six mandatory entries and the supplemental `product_name`;
`optFieldConfidences` is `options.fieldConfidences` (an absent map is the
constant-`none` function). -/
def createNormalizedLabel (rawData : FieldId → RawValue)
    (rawProductName : RawValue) (optFieldConfidences : FieldId → Option ℚ) :
    NormalizedLabel :=
  let normalized := labelVals rawData
  let fieldConfidences := labelConf rawData optFieldConfidences
  let violations := codeViolations rawData optFieldConfidences
  { fields := normalized
    product_name := sanitizeSupplemental rawProductName
    fieldConfidences := fieldConfidences
    compliance_score := codeComplianceScore normalized fieldConfidences
    status := codeStatus normalized fieldConfidences violations
    violations := violations
    fields_present := codePresentFields normalized
    fields_total := FieldId.all.length }

/-! ## The scoring formula as the specification states it -/

/-- Present mandatory fields in the sense of the specification: the fields
whose normalized value is non-null. -/
def specPresentList (vals : FieldId → Option String) : List FieldId :=
  FieldId.all.filter fun f => (vals f).isSome

/-- The specification's present-field count. -/
def specPresentCount (vals : FieldId → Option String) : Nat :=
  (specPresentList vals).length

/-- The specification's average confidence: the arithmetic mean of the
confidences of the present mandatory fields only, and 0 when no mandatory
field is present. -/
def specAvgConfidence (vals : FieldId → Option String)
    (confs : FieldId → ℚ) : ℚ :=
  if specPresentCount vals = 0 then 0
  else ((specPresentList vals).map confs).sum / (specPresentCount vals : ℚ)

/-- The specification's compliance score:
round(max(0, present/6*100 - max(0, (0.6 - avgConfidence) * 30))). -/
def specComplianceScore (vals : FieldId → Option String)
    (confs : FieldId → ℚ) : ℤ :=
  let baseScore : ℚ := (specPresentCount vals : ℚ) / 6 * 100
  let confidencePenalty : ℚ :=
    max 0 ((3/5 - specAvgConfidence vals confs) * 30)
  jsRound (max 0 (baseScore - confidencePenalty))

/-! ## Pattern-Cascade Extractor (`ocr-processor.js`)

A small backtracking regex interpreter with the JavaScript semantics that the
`FIELD_PATTERNS` table relies on: alternatives are tried left to right,
quantifiers are greedy with backtracking, matching is leftmost, a global
regex resumes scanning right after the previous match, and capture group 1
is recorded.  Every quantifier in the table applies to a character class, so
starred subexpressions are represented as class repetitions and the bounded
repetition of a composite body is expanded through `opt`. -/

inductive RE where
  | cls (p : Char → Bool)
  | lit (s : List Char)
  | litCI (s : List Char)
  | seq (a b : RE)
  | alt (a b : RE)
  | opt (a : RE)
  | starCls (p : Char → Bool)
  | plusCls (p : Char → Bool)
  | repCls (p : Char → Bool) (lo hi : Nat)
  | group (a : RE)

/-- Strip a case-sensitive literal. -/
def stripLit : List Char → List Char → Option (List Char)
  | [], cs => some cs
  | _ :: _, [] => none
  | p :: ps, c :: cs => if c == p then stripLit ps cs else none

/-- Strip a case-insensitive literal. -/
def stripLitCI : List Char → List Char → Option (List Char)
  | [], cs => some cs
  | _ :: _, [] => none
  | p :: ps, c :: cs =>
    if Char.toLower c == Char.toLower p then stripLitCI ps cs else none

/-- Try repetition counts from `hi` down to `lo` (greedy order), returning
the first success. -/
def tryCounts (f : Nat → Option α) : Nat → Nat → Option α
  | 0, lo => if lo = 0 then f 0 else none
  | n + 1, lo =>
    if n + 1 < lo then none
    else
      match f (n + 1) with
      | some r => some r
      | none => tryCounts f n lo

/-- Merge at most one recorded capture. -/
def mergeCap : Option String → Option String → Option String
  | some v, _ => some v
  | none, c => c

/-- Backtracking matcher in continuation style: the continuation receives
the unconsumed remainder and the capture recorded so far. -/
def matchRE : RE → List Char →
    (List Char → Option String → Option (List Char × Option String)) →
    Option (List Char × Option String)
  | .cls p, cs, k =>
    match cs with
    | [] => none
    | c :: rest => if p c then k rest none else none
  | .lit s, cs, k =>
    match stripLit s cs with
    | some rest => k rest none
    | none => none
  | .litCI s, cs, k =>
    match stripLitCI s cs with
    | some rest => k rest none
    | none => none
  | .seq a b, cs, k =>
    matchRE a cs fun rest cap1 =>
      matchRE b rest fun rest2 cap2 => k rest2 (mergeCap cap1 cap2)
  | .alt a b, cs, k =>
    match matchRE a cs k with
    | some r => some r
    | none => matchRE b cs k
  | .opt a, cs, k =>
    match matchRE a cs k with
    | some r => some r
    | none => k cs none
  | .starCls p, cs, k =>
    tryCounts (fun n => k (cs.drop n) none) (cs.takeWhile p).length 0
  | .plusCls p, cs, k =>
    tryCounts (fun n => k (cs.drop n) none) (cs.takeWhile p).length 1
  | .repCls p lo hi, cs, k =>
    tryCounts (fun n => k (cs.drop n) none) (min (cs.takeWhile p).length hi) lo
  | .group a, cs, k =>
    matchRE a cs fun rest _ =>
      k rest (some ⟨cs.take (cs.length - rest.length)⟩)

/-- A compiled pattern of the `FIELD_PATTERNS` table; `bol` marks the one
pattern anchored with a multiline caret. -/
structure JsRegex where
  re : RE
  bol : Bool

/-- Attempt a match at the current position; returns the consumed length and
capture group 1. -/
def matchAtPos (r : JsRegex) (cs : List Char) (atBOL : Bool) :
    Option (Nat × Option String) :=
  if r.bol && !atBOL then none
  else
    match matchRE r.re cs fun rest cap => some (rest, cap) with
    | some (rest, cap) => some (cs.length - rest.length, cap)
    | none => none

/-- Is the scanner at a beginning-of-line position after consuming `adv`
characters of `cs`? -/
def bolAfter (cs : List Char) (adv : Nat) (atBOL : Bool) : Bool :=
  match (cs.take adv).getLast? with
  | some c => isLineTerm c
  | none => atBOL

/-- Fuelled global scan: all matches, left to right, resuming after each
match (advancing one character past an empty match, as JavaScript does). -/
def scanAllAux (r : JsRegex) : Nat → List Char → Bool →
    List (String × Option String)
  | 0, _, _ => []
  | fuel + 1, cs, atBOL =>
    match matchAtPos r cs atBOL with
    | some (len, cap) =>
      let adv := max len 1
      (⟨cs.take len⟩, cap) :: scanAllAux r fuel (cs.drop adv) (bolAfter cs adv atBOL)
    | none =>
      match cs with
      | [] => []
      | c :: rest => scanAllAux r fuel rest (isLineTerm c)

/-- `text.match(pattern)` for a global pattern: the list of matched
substrings, paired with the capture group so the same scan also serves
`exec`. -/
def jsMatchAll (r : JsRegex) (text : String) : List (String × Option String) :=
  scanAllAux r (text.toList.length + 1) text.toList true

/-- `pattern.exec(text)` with `lastIndex = 0`: the first match. -/
def jsExecFirst (r : JsRegex) (text : String) : Option (String × Option String) :=
  (jsMatchAll r text).head?

/-! ### The `FIELD_PATTERNS` table -/

def reSeq (l : List RE) : RE :=
  match l with
  | [] => .lit []
  | a :: t => t.foldl .seq a

def reAlt (l : List RE) : RE :=
  match l with
  | [] => .cls fun _ => false
  | a :: t => t.foldl .alt a

def ciLit (s : String) : RE := .litCI s.toList

def csLit (s : String) : RE := .lit s.toList

/-- The class `[:\s]`. -/
def colonWsCh (c : Char) : Bool := c == ':' || jsWs c

/-- The class `[^\n\r]`. -/
def notNLCh (c : Char) : Bool := !(c == '\n' || c == '\r')

def reWsStar : RE := .starCls jsWs

def reColonWsStar : RE := .starCls colonWsCh

def reColonWsPlus : RE := .plusCls colonWsCh

def reNotNLPlus : RE := .plusCls notNLCh

/-- The number body with an optional decimal/comma part. -/
def reNum : RE :=
  .seq (.plusCls Char.isDigit)
    (.opt (.seq (.cls fun c => c == '.' || c == ',') (.plusCls Char.isDigit)))

/-- Bounded repetition of a composite body, zero to two times, greedy. -/
def rep02 (b : RE) : RE := .opt (.seq b (.opt b))

/-- The captured rest-of-line group of the manufacturer/address patterns:
the rest of the line plus up to two further lines. -/
def linesGroup : RE :=
  .group (.seq reNotNLPlus (rep02 (.seq (csLit "\n") reNotNLPlus)))

def pnKeywordRE : RE :=
  reAlt (["cream", "lotion", "powder", "tablet", "capsule", "soap", "oil",
    "shampoo", "face", "skin", "hair", "body"].map ciLit)

/-- The class `[A-Za-z\s&]`. -/
def pnCls (c : Char) : Bool := isAsciiLetter c || jsWs c || c == '&'

def pnP1 : JsRegex := ⟨reSeq [ciLit "name", reColonWsPlus, .group reNotNLPlus], false⟩
def pnP2 : JsRegex := ⟨reSeq [ciLit "product", reColonWsPlus, .group reNotNLPlus], false⟩
def pnP3 : JsRegex := ⟨.group (.seq (.plusCls pnCls) pnKeywordRE), true⟩

def mrpP1 : JsRegex :=
  ⟨reSeq [reAlt [ciLit "mrp", .seq (ciLit "m.r.p") (.opt (csLit ".")),
      ciLit "price", ciLit "cost"],
    reColonWsStar, .opt (csLit "₹"), reWsStar, .group reNum], false⟩
def mrpP2 : JsRegex := ⟨reSeq [csLit "₹", reWsStar, .group reNum], false⟩
def mrpP3 : JsRegex :=
  ⟨reSeq [ciLit "rs", .opt (csLit "."), reWsStar, .group reNum], false⟩
def mrpP4 : JsRegex := ⟨reSeq [ciLit "inr", reWsStar, .group reNum], false⟩

def nqUnitRE : RE :=
  reAlt [ciLit "g", ciLit "kg", ciLit "ml", ciLit "l", ciLit "gm", ciLit "gms",
    .seq (ciLit "liter") (.opt (ciLit "s")),
    .seq (ciLit "piece") (.opt (ciLit "s")), ciLit "pcs",
    .seq (ciLit "tablet") (.opt (ciLit "s")),
    .seq (ciLit "no") (.opt (ciLit "s"))]

/-- The captured quantity group: digits, optional decimal part, whitespace,
then a unit word. -/
def nqValueRE : RE :=
  .group (reSeq [.plusCls Char.isDigit,
    .opt (.seq (csLit ".") (.plusCls Char.isDigit)), reWsStar, nqUnitRE])

def nqP1 : JsRegex :=
  ⟨reSeq [reAlt [reSeq [ciLit "net", reWsStar, ciLit "qty"],
      reSeq [ciLit "net", reWsStar, ciLit "wt"], ciLit "quantity",
      ciLit "weight", .seq (ciLit "content") (.opt (ciLit "s"))],
    reColonWsStar, nqValueRE], false⟩
def nqP2 : JsRegex := ⟨nqValueRE, false⟩

def mfgP1 : JsRegex :=
  ⟨reSeq [reAlt [.seq (ciLit "mfg") (.opt (csLit ".")),
      reSeq [ciLit "manufactured", reWsStar, ciLit "by"],
      reSeq [ciLit "mfd", .opt (csLit "."), reWsStar, ciLit "by"],
      reSeq [ciLit "made", reWsStar, ciLit "by"], ciLit "manufacturer"],
    reColonWsStar, linesGroup], false⟩
def mfgP2 : JsRegex :=
  ⟨reSeq [reAlt [reSeq [ciLit "packed", reWsStar, ciLit "by"], ciLit "packer",
      reSeq [ciLit "packaged", reWsStar, ciLit "by"]],
    reColonWsStar, linesGroup], false⟩
def mfgP3 : JsRegex :=
  ⟨reSeq [reAlt [reSeq [ciLit "imported", reWsStar, ciLit "by"],
      ciLit "importer"], reColonWsStar, linesGroup], false⟩
def mfgP4 : JsRegex :=
  ⟨reSeq [reAlt [reSeq [ciLit "marketed", reWsStar, ciLit "by"],
      ciLit "marketer"], reColonWsStar, linesGroup], false⟩

/-- The captured date group: a numeric `d/m/y`-style date, or a month word
followed by a year. -/
def dateBody : RE :=
  .group (.alt
    (reSeq [.repCls Char.isDigit 1 2, .cls isSepCh, .repCls Char.isDigit 1 2,
      .cls isSepCh, .repCls Char.isDigit 2 4])
    (reSeq [.cls isAsciiLetter, .cls isAsciiLetter, .cls isAsciiLetter,
      .starCls isAsciiLetter, reWsStar, .repCls Char.isDigit 2 4]))

def dateP1 : JsRegex :=
  ⟨reSeq [reAlt [reSeq [ciLit "mfg", .opt (csLit "."), reWsStar, ciLit "date"],
      reSeq [ciLit "manufactured", reWsStar, ciLit "on"],
      reSeq [ciLit "mfd", .opt (csLit "."), reWsStar, ciLit "on"],
      reSeq [ciLit "date", reWsStar, ciLit "of", reWsStar, ciLit "mfg"]],
    reColonWsStar, dateBody], false⟩
def dateP2 : JsRegex :=
  ⟨reSeq [reAlt [reSeq [ciLit "packed", reWsStar, ciLit "on"],
      reSeq [ciLit "pkg", .opt (csLit "."), reWsStar, ciLit "date"],
      reSeq [ciLit "packing", reWsStar, ciLit "date"]],
    reColonWsStar, dateBody], false⟩
def dateP3 : JsRegex :=
  ⟨reSeq [reAlt [reSeq [ciLit "exp", .opt (csLit "."), reWsStar, ciLit "date"],
      ciLit "expiry", reSeq [ciLit "expire", .opt (ciLit "s"), reWsStar, ciLit "on"],
      reSeq [ciLit "best", reWsStar, ciLit "before"]],
    reColonWsStar, dateBody], false⟩

def cooP1 : JsRegex :=
  ⟨reSeq [reAlt [reSeq [ciLit "country", reWsStar, ciLit "of", reWsStar,
      ciLit "origin"], ciLit "origin", reSeq [ciLit "made", reWsStar, ciLit "in"]],
    reColonWsStar, .group (.plusCls azWsCh)], false⟩
def cooP2 : JsRegex :=
  ⟨reSeq [ciLit "made", reWsStar, ciLit "in", reWsStar,
    .group (.plusCls azWsCh)], false⟩

/-- The phone class `[0-9\s\-\+\(\)]`. -/
def phoneCls (c : Char) : Bool :=
  c.isDigit || jsWs c || c == '-' || c == '+' || c == '(' || c == ')'

/-- The email local-part class `[a-zA-Z0-9._%+-]`. -/
def emailLocalCls (c : Char) : Bool :=
  isAsciiLetter c || c.isDigit || c == '.' || c == '_' || c == '%' ||
  c == '+' || c == '-'

/-- The email domain class `[a-zA-Z0-9.-]`. -/
def emailDomCls (c : Char) : Bool :=
  isAsciiLetter c || c.isDigit || c == '.' || c == '-'

def ccP1 : JsRegex :=
  ⟨reSeq [reAlt [reSeq [ciLit "customer", reWsStar, ciLit "care"],
      reSeq [ciLit "consumer", reWsStar, ciLit "care"], ciLit "helpline",
      ciLit "support"], reColonWsStar, .group (.plusCls phoneCls)], false⟩
def ccP2 : JsRegex :=
  ⟨reSeq [reAlt [.seq (ciLit "ph") (.opt (csLit ".")), ciLit "phone",
      .seq (ciLit "tel") (.opt (csLit ".")), ciLit "call"],
    reColonWsStar, .group (.plusCls phoneCls)], false⟩
def ccP3 : JsRegex :=
  ⟨.group (reSeq [.plusCls emailLocalCls, csLit "@", .plusCls emailDomCls,
    csLit ".", .cls isAsciiLetter, .cls isAsciiLetter,
    .starCls isAsciiLetter]), false⟩
def ccP4 : JsRegex :=
  ⟨reSeq [reAlt [ciLit "address", ciLit "contact"], reColonWsStar,
    linesGroup], false⟩

/-- The `FIELD_PATTERNS` table of `ocr-processor.js`, in declaration order. -/
def FIELD_PATTERNS : List (String × List JsRegex) :=
  [("product_name", [pnP1, pnP2, pnP3]),
   ("mrp_inclusive", [mrpP1, mrpP2, mrpP3, mrpP4]),
   ("net_quantity", [nqP1, nqP2]),
   ("manufacturer_or_importer_name_address", [mfgP1, mfgP2, mfgP3, mfgP4]),
   ("month_year_of_manufacture_pack_or_import", [dateP1, dateP2, dateP3]),
   ("country_of_origin", [cooP1, cooP2]),
   ("consumer_care", [ccP1, ccP2, ccP3, ccP4])]

/-- The result record of the extractor. -/
structure Extraction where
  value : Option String
  confidence : ℚ
deriving DecidableEq, Repr

/-- `extractField(text, fieldName)` of `ocr-processor.js`, translated
faithfully: an unknown field name falls back to an empty pattern list; for
each pattern the code walks the array returned by `text.match(pattern)` but,
because `pattern.lastIndex` is reset to 0 at the end of every loop
iteration, each call of `pattern.exec(text)` inside the loop starts from
index 0 again and yields the first match of the pattern. -/
def extractField (text fname : String) : Extraction :=
  let patterns := (FIELD_PATTERNS.lookup fname).getD []
  let best := patterns.foldl (fun (acc : Option String × ℚ) pattern =>
    let ms := jsMatchAll pattern text
    ms.foldl (fun (acc2 : Option String × ℚ) _m =>
      match jsExecFirst pattern text with
      | some (_, some g) =>
        if g == "" then acc2
        else
          let value := jsTrim g
          if value.toList.length > 2 then
            let confidence := jsMinQ (9/10 : ℚ) (6/10 + (value.toList.length : ℚ) / 100)
            if confidence > acc2.2 then (some value, confidence) else acc2
          else acc2
      | _ => acc2) acc) (none, 0)
  ⟨best.1, best.2⟩

/-- Modelled from the spec (section 4.1): the pattern-cascade extractor the
specification describes, which considers the capture group of every match of
every pattern (not only the first match), keeping the strictly highest
confidence with ties going to the first candidate found. -/
def specExtractFieldAllMatches (text fname : String) : Extraction :=
  let patterns := (FIELD_PATTERNS.lookup fname).getD []
  let best := patterns.foldl (fun (acc : Option String × ℚ) pattern =>
    (jsMatchAll pattern text).foldl (fun (acc2 : Option String × ℚ) m =>
      match m.2 with
      | some g =>
        if g == "" then acc2
        else
          let value := jsTrim g
          if value.toList.length > 2 then
            let confidence := jsMinQ (9/10 : ℚ) (6/10 + (value.toList.length : ℚ) / 100)
            if confidence > acc2.2 then (some value, confidence) else acc2
          else acc2
      | none => acc2) acc) (none, 0)
  ⟨best.1, best.2⟩

/-! ## The clean-up step of `scrapeProduct` (`server.js`)

After the structured-data / site-specific / generic extraction tiers,
`scrapeProduct` clamps the extracted values ("Clean up extracted data") and
assembles the raw object handed onward, mapping `price` to the `MRP` key. -/

/-- One clamp line: `if (x && typeof x === 'string') x = x.substring(0, n)`. -/
def cleanupTrunc (n : Nat) (v : RawValue) : RawValue :=
  match v.asTruthyString with
  | some s => .vstr (truncateStr n s)
  | none => v

/-- The raw object assembled by `scrapeProduct` after the clean-up step. -/
structure ScrapedRaw where
  product_name : RawValue
  MRP : RawValue
  net_quantity : RawValue
  manufacturer : RawValue
  country_of_origin : RawValue
deriving DecidableEq, Repr

/-- The clean-up/assembly tail of `scrapeProduct`: `product_name` is clamped
to 200, `price` and `net_quantity` to 50, `manufacturer` to 100 and
`country_of_origin` to 100 characters. -/
def scrapeCleanup (product_name price net_quantity manufacturer
    country_of_origin : RawValue) : ScrapedRaw :=
  { product_name := cleanupTrunc 200 product_name
    MRP := cleanupTrunc 50 price
    net_quantity := cleanupTrunc 50 net_quantity
    manufacturer := cleanupTrunc 100 manufacturer
    country_of_origin := cleanupTrunc 100 country_of_origin }

/-! ## Basic lemmas about the string primitives -/

theorem dropWhile_head_false (p : Char → Bool) :
    ∀ (cs : List Char) (d : Char) (ds : List Char),
      cs.dropWhile p = d :: ds → p d = false := by
  intro cs
  induction cs with
  | nil => intro d ds h; simp [List.dropWhile] at h
  | cons c cs ih =>
    intro d ds h
    by_cases hc : p c
    · rw [List.dropWhile_cons_of_pos hc] at h
      exact ih d ds h
    · rw [List.dropWhile_cons_of_neg hc] at h
      cases h
      simpa using hc

theorem dropTrailWs_append (cs : List Char) :
    ∃ t, cs = dropTrailWs cs ++ t ∧ ∀ c ∈ t, jsWs c = true := by
  refine ⟨(cs.reverse.takeWhile jsWs).reverse, ?_, ?_⟩
  · have h := List.takeWhile_append_dropWhile (p := jsWs) (l := cs.reverse)
    have h2 := congrArg List.reverse h
    rw [List.reverse_append, List.reverse_reverse] at h2
    exact h2.symm
  · intro c hc
    rw [List.mem_reverse] at hc
    exact List.mem_takeWhile_imp hc

theorem trimL_head (cs : List Char) (d : Char) (ds : List Char)
    (h : trimL cs = d :: ds) : jsWs d = false := by
  obtain ⟨t, ht, _⟩ := dropTrailWs_append (cs.dropWhile jsWs)
  rw [trimL] at h
  rw [h] at ht
  exact dropWhile_head_false jsWs cs d (ds ++ t) ht

theorem trimL_reverse_head (cs : List Char) (d : Char) (ds : List Char)
    (h : (trimL cs).reverse = d :: ds) : jsWs d = false := by
  rw [trimL, dropTrailWs, List.reverse_reverse] at h
  exact dropWhile_head_false jsWs (cs.dropWhile jsWs).reverse d ds h

theorem trimL_idem (cs : List Char) : trimL (trimL cs) = trimL cs := by
  have h1 : (trimL cs).dropWhile jsWs = trimL cs := by
    cases h : trimL cs with
    | nil => simp
    | cons d ds =>
      have hd : jsWs d = false := trimL_head cs d ds h
      rw [List.dropWhile_cons_of_neg (by simp [hd])]
  have h2 : dropTrailWs (trimL cs) = trimL cs := by
    rw [dropTrailWs]
    cases hr : (trimL cs).reverse with
    | nil =>
      simp only [List.dropWhile_nil, List.reverse_nil]
      have := congrArg List.reverse hr
      rw [List.reverse_reverse] at this
      simp [this]
    | cons d ds =>
      have hd : jsWs d = false := trimL_reverse_head cs d ds hr
      rw [List.dropWhile_cons_of_neg (by simp [hd]), ← hr, List.reverse_reverse]
  show dropTrailWs ((trimL cs).dropWhile jsWs) = trimL cs
  rw [h1, h2]

theorem trimL_ne_nil (d : Char) (ds : List Char) (hd : jsWs d = false) :
    trimL (d :: ds) ≠ [] := by
  intro h
  rw [trimL, List.dropWhile_cons_of_neg (by simp [hd]), dropTrailWs] at h
  have h2 := congrArg List.reverse h
  rw [List.reverse_reverse, List.reverse_nil] at h2
  rw [List.dropWhile_eq_nil_iff] at h2
  have := h2 d (by simp)
  rw [hd] at this
  cases this

theorem trimL_length_le (cs : List Char) : (trimL cs).length ≤ cs.length := by
  obtain ⟨t, ht, _⟩ := dropTrailWs_append (cs.dropWhile jsWs)
  have h1 : (cs.dropWhile jsWs).length ≤ cs.length := by
    conv_rhs => rw [← List.takeWhile_append_dropWhile (p := jsWs) (l := cs)]
    rw [List.length_append]
    exact Nat.le_add_left _ _
  calc (trimL cs).length ≤ (trimL cs).length + t.length := Nat.le_add_right _ _
    _ = (cs.dropWhile jsWs).length := by
        rw [trimL, ← List.length_append, ← ht]
    _ ≤ cs.length := h1

theorem str_ne_empty_of_toList {v : String} (h : v.toList ≠ []) : v ≠ "" :=
  fun he => h (by rw [he]; rfl)

/-- Invariant of sanitized values: a surviving value is non-empty, does not
trim to empty (it starts with a non-whitespace character), and its length is
between 2 and the field's maxLength. -/
theorem sanitizeValue_some {f : FieldId} {r : RawValue} {v : String}
    (h : sanitizeValue f r = some v) :
    v ≠ "" ∧ jsTrim v ≠ "" ∧ 2 ≤ v.toList.length ∧
      v.toList.length ≤ maxLengthOf f := by
  unfold sanitizeValue at h
  cases hr : r.asTruthyString with
  | none => rw [hr] at h; cases h
  | some s =>
    rw [hr] at h
    dsimp only at h
    by_cases hs : isSentinelValue (truncateStr (maxLengthOf f) (jsTrim s))
    · rw [if_pos hs] at h; cases h
    · rw [if_neg hs] at h
      have hv := (Option.some.inj h).symm
      subst hv
      have hs' : isSentinelValue (truncateStr (maxLengthOf f) (jsTrim s)) = false := by
        rwa [Bool.not_eq_true] at hs
      simp only [isSentinelValue, Bool.or_eq_false_iff,
        decide_eq_false_iff_not, Nat.not_lt] at hs'
      obtain ⟨⟨⟨⟨hlen2, -⟩, -⟩, -⟩, -⟩ := hs'
      have hlist : (truncateStr (maxLengthOf f) (jsTrim s)).toList
          = (trimL s.toList).take (maxLengthOf f) := rfl
      have hlenle : (truncateStr (maxLengthOf f) (jsTrim s)).toList.length
          ≤ maxLengthOf f := by
        rw [hlist, List.length_take]
        exact Nat.min_le_left _ _
      have hne : (truncateStr (maxLengthOf f) (jsTrim s)).toList ≠ [] := by
        intro hnil
        rw [hnil] at hlen2
        simp at hlen2
      refine ⟨str_ne_empty_of_toList hne, ?_, hlen2, hlenle⟩
      have htake : (trimL s.toList).take (maxLengthOf f) ≠ [] := by
        rw [← hlist]; exact hne
      cases htr : trimL s.toList with
      | nil => rw [htr] at htake; simp at htake
      | cons d ds =>
        have hd : jsWs d = false := trimL_head s.toList d ds htr
        have hpos : 1 ≤ maxLengthOf f := by cases f <;> decide
        obtain ⟨m, hm⟩ := Nat.exists_eq_add_of_le hpos
        have heq : (trimL s.toList).take (maxLengthOf f) = d :: ds.take m := by
          rw [htr, hm, Nat.add_comm, List.take_succ_cons]
        intro hjt
        have h0 : trimL ((trimL s.toList).take (maxLengthOf f)) = [] :=
          congrArg String.toList hjt
        rw [heq] at h0
        exact trimL_ne_nil d (ds.take m) hd h0

/-- The loop records the sanitized value. -/
theorem pmf_value (f : FieldId) (r : RawValue) (c : Option ℚ) :
    (processMandatoryField f r c).value = sanitizeValue f r := by
  unfold processMandatoryField sanitizeValue
  cases hr : r.asTruthyString with
  | none => rfl
  | some s =>
    dsimp only
    by_cases hs : isSentinelValue (truncateStr (maxLengthOf f) (jsTrim s))
    · simp [hs]
    · by_cases hval : validationOf f (truncateStr (maxLengthOf f) (jsTrim s))
      · simp [hs, hval]
      · simp [hs, hval]

/-- The loop on a field whose value is suppressed: default confidence and a
single missing violation. -/
theorem pmf_none {f : FieldId} {r : RawValue} (c : Option ℚ)
    (h : sanitizeValue f r = none) :
    processMandatoryField f r c = ⟨none, confDefault c, [missingViolation f]⟩ := by
  unfold processMandatoryField
  unfold sanitizeValue at h
  cases hr : r.asTruthyString with
  | none => rfl
  | some s =>
    rw [hr] at h
    dsimp only at h
    dsimp only
    by_cases hs : isSentinelValue (truncateStr (maxLengthOf f) (jsTrim s))
    · simp [hs]
    · rw [if_neg hs] at h; cases h

/-- The loop on a field whose value survives and passes validation. -/
theorem pmf_valid {f : FieldId} {r : RawValue} {v : String} (c : Option ℚ)
    (h : sanitizeValue f r = some v) (hval : validationOf f v = true) :
    processMandatoryField f r c = ⟨some v, confDefault c, []⟩ := by
  obtain ⟨hne, hnetr, -, -⟩ := sanitizeValue_some h
  have hne' : (v == "") = false := beq_eq_false_iff_ne.mpr hne
  have hnetr' : (jsTrim v == "") = false := beq_eq_false_iff_ne.mpr hnetr
  unfold processMandatoryField
  unfold sanitizeValue at h
  cases hr : r.asTruthyString with
  | none => rw [hr] at h; cases h
  | some s =>
    rw [hr] at h
    dsimp only at h
    dsimp only
    by_cases hs : isSentinelValue (truncateStr (maxLengthOf f) (jsTrim s))
    · rw [if_pos hs] at h; cases h
    · rw [if_neg hs] at h
      have hv := Option.some.inj h
      subst hv
      simp [hs, hval, hne', hnetr']

/-- The loop on a field whose value survives but fails validation: the
confidence is penalized and a single format violation recorded. -/
theorem pmf_invalid {f : FieldId} {r : RawValue} {v : String} (c : Option ℚ)
    (h : sanitizeValue f r = some v) (hval : validationOf f v = false) :
    processMandatoryField f r c
      = ⟨some v, jsMaxQ 0 (confDefault c - 3/10), [formatViolation f v]⟩ := by
  obtain ⟨hne, hnetr, -, -⟩ := sanitizeValue_some h
  have hne' : (v == "") = false := beq_eq_false_iff_ne.mpr hne
  have hnetr' : (jsTrim v == "") = false := beq_eq_false_iff_ne.mpr hnetr
  unfold processMandatoryField
  unfold sanitizeValue at h
  cases hr : r.asTruthyString with
  | none => rw [hr] at h; cases h
  | some s =>
    rw [hr] at h
    dsimp only at h
    dsimp only
    by_cases hs : isSentinelValue (truncateStr (maxLengthOf f) (jsTrim s))
    · rw [if_pos hs] at h; cases h
    · rw [if_neg hs] at h
      have hv := Option.some.inj h
      subst hv
      simp [hs, hval, hne', hnetr']

/-! ## Scoring lemmas -/

/-- The confidence penalty as the code computes it. -/
def penQ (a : ℚ) : ℚ := if a < 3/5 then (3/5 - a) * 30 else 0

/-- The score as a function of the present count and the average confidence. -/
def scoreOf (p : Nat) (a : ℚ) : ℤ := max 0 (jsRound ((p : ℚ) / 6 * 100 - penQ a))

theorem penQ_eq_max (a : ℚ) : penQ a = max 0 ((3/5 - a) * 30) := by
  unfold penQ
  split_ifs with h
  · rw [max_eq_right]; linarith
  · rw [max_eq_left]; push_neg at h; linarith

theorem penQ_nonneg (a : ℚ) : 0 ≤ penQ a := by
  unfold penQ; split_ifs with h
  · linarith
  · exact le_refl 0

theorem penQ_le_18 {a : ℚ} (h : 0 ≤ a) : penQ a ≤ 18 := by
  unfold penQ; split_ifs with h2 <;> linarith

theorem penQ_diff_le (a b : ℚ) : penQ b - penQ a ≤ 30 * max 0 (a - b) := by
  have h1 : (0 : ℚ) ≤ max 0 (a - b) := le_max_left _ _
  have h2 : a - b ≤ max 0 (a - b) := le_max_right _ _
  unfold penQ
  split_ifs with hb ha <;> linarith

theorem jsRound_mono {a b : ℚ} (h : a ≤ b) : jsRound a ≤ jsRound b :=
  Int.floor_le_floor (by linarith)

theorem jsRound_nonneg {a : ℚ} (h : 0 ≤ a) : 0 ≤ jsRound a :=
  Int.le_floor.mpr (by push_cast; linarith)

theorem jsRound_nonpos {a : ℚ} (h : a < 0) : jsRound a ≤ 0 := by
  have : jsRound a < 1 := by
    rw [jsRound, Int.floor_lt]
    push_cast
    linarith
  omega

theorem jsRound_le_100 {a : ℚ} (h : a ≤ 100) : jsRound a ≤ 100 := by
  rw [jsRound]
  have : (⌊a + 1/2⌋ : ℤ) < 101 := by
    rw [Int.floor_lt]
    push_cast
    linarith
  omega

theorem max_jsRound (q : ℚ) : max 0 (jsRound q) = jsRound (max 0 q) := by
  rcases le_or_lt 0 q with h | h
  · rw [max_eq_right h, max_eq_right (jsRound_nonneg h)]
  · rw [max_eq_left h.le, max_eq_left (jsRound_nonpos h)]
    rw [jsRound]
    symm
    rw [Int.floor_eq_zero_iff]
    constructor <;> norm_num

/-! ## The score and status of the label, characterized -/

theorem codePresent_pred_eq (raw : FieldId → RawValue) (f : FieldId) :
    (match labelVals raw f with
     | some v => !(v == "") && !(jsTrim v == "")
     | none => false) = (labelVals raw f).isSome := by
  cases h : labelVals raw f with
  | none => rfl
  | some v =>
    obtain ⟨hne, hnetr, -, -⟩ := sanitizeValue_some (f := f) (r := raw f) h
    simp [beq_eq_false_iff_ne.mpr hne, beq_eq_false_iff_ne.mpr hnetr]

theorem codeTruthy_pred_eq (raw : FieldId → RawValue) (f : FieldId) :
    (match labelVals raw f with
     | some v => !(v == "")
     | none => false) = (labelVals raw f).isSome := by
  cases h : labelVals raw f with
  | none => rfl
  | some v =>
    obtain ⟨hne, -, -, -⟩ := sanitizeValue_some (f := f) (r := raw f) h
    simp [beq_eq_false_iff_ne.mpr hne]

theorem codePresentFields_eq (raw : FieldId → RawValue) :
    codePresentFields (labelVals raw) = specPresentCount (labelVals raw) := by
  unfold codePresentFields specPresentCount specPresentList
  congr 1
  apply List.filter_congr
  intro f _
  exact codePresent_pred_eq raw f

theorem codePresentConfs_eq (raw : FieldId → RawValue) (confs : FieldId → ℚ) :
    codePresentConfidences (labelVals raw) confs
      = (specPresentList (labelVals raw)).map confs := by
  unfold codePresentConfidences specPresentList
  congr 1
  apply List.filter_congr
  intro f _
  exact codeTruthy_pred_eq raw f

theorem codeAvg_eq (raw : FieldId → RawValue) (confs : FieldId → ℚ) :
    codeAvgConfidence (labelVals raw) confs
      = specAvgConfidence (labelVals raw) confs := by
  unfold codeAvgConfidence specAvgConfidence
  rw [codePresentConfs_eq]
  dsimp only
  rw [List.length_map]
  unfold specPresentCount
  by_cases hz : (specPresentList (labelVals raw)).length = 0
  · simp [hz]
  · rw [if_pos (Nat.pos_of_ne_zero hz), if_neg hz]

theorem all_length_cast : ((FieldId.all.length : Nat) : ℚ) = 6 := by
  norm_num [show FieldId.all.length = 6 from rfl]

theorem score_char (raw : FieldId → RawValue) (confs : FieldId → ℚ) :
    codeComplianceScore (labelVals raw) confs
      = scoreOf (specPresentCount (labelVals raw))
          (specAvgConfidence (labelVals raw) confs) := by
  unfold codeComplianceScore scoreOf penQ
  rw [jsMaxZ_eq, codePresentFields_eq, codeAvg_eq, all_length_cast]

theorem spec_score_eq_scoreOf (vals : FieldId → Option String)
    (confs : FieldId → ℚ) :
    specComplianceScore vals confs
      = scoreOf (specPresentCount vals) (specAvgConfidence vals confs) := by
  unfold specComplianceScore scoreOf
  rw [← penQ_eq_max, max_jsRound]

theorem specPresentCount_le_six (vals : FieldId → Option String) :
    specPresentCount vals ≤ 6 := by
  unfold specPresentCount specPresentList
  exact le_trans (List.length_filter_le _ _) (by norm_num [FieldId.all])

theorem scoreOf_nonneg (p : Nat) (a : ℚ) : 0 ≤ scoreOf p a := le_max_left _ _

theorem scoreOf_le_100 {p : Nat} (hp : p ≤ 6) (a : ℚ) : scoreOf p a ≤ 100 := by
  unfold scoreOf
  apply max_le (by norm_num)
  apply jsRound_le_100
  have hq : (p : ℚ) ≤ 6 := by exact_mod_cast hp
  have := penQ_nonneg a
  nlinarith

theorem present_ge_42_iff (p : Nat) : ((p : ℚ) ≥ 6 * (7/10)) ↔ 5 ≤ p := by
  constructor
  · intro h
    by_contra hlt
    push_neg at hlt
    have h4 : p ≤ 4 := Nat.lt_succ_iff.mp hlt
    have : (p : ℚ) ≤ 4 := by exact_mod_cast h4
    linarith
  · intro h
    have : (5 : ℚ) ≤ (p : ℚ) := by exact_mod_cast h
    linarith

/-- C1: for every input, the compliance score returned by
`createNormalizedLabel` equals round(max(0, baseScore - confidencePenalty))
with baseScore = present/6*100 over the label's normalized mandatory values,
confidencePenalty = max(0, (0.6 - avgConfidence) * 30), and avgConfidence
the mean of the recorded confidences of the present mandatory fields (0 when
none is present); and the score always lies in [0, 100]. -/
theorem C1_compliance_score_formula (raw : FieldId → RawValue)
    (pn : RawValue) (cIn : FieldId → Option ℚ) :
    (createNormalizedLabel raw pn cIn).compliance_score
        = specComplianceScore (createNormalizedLabel raw pn cIn).fields
            (createNormalizedLabel raw pn cIn).fieldConfidences
      ∧ 0 ≤ (createNormalizedLabel raw pn cIn).compliance_score
      ∧ (createNormalizedLabel raw pn cIn).compliance_score ≤ 100 := by
  refine ⟨?_, ?_, ?_⟩
  · show codeComplianceScore (labelVals raw) (labelConf raw cIn)
      = specComplianceScore (labelVals raw) (labelConf raw cIn)
    rw [score_char, spec_score_eq_scoreOf]
  · show 0 ≤ codeComplianceScore (labelVals raw) (labelConf raw cIn)
    rw [score_char]
    exact scoreOf_nonneg _ _
  · show codeComplianceScore (labelVals raw) (labelConf raw cIn) ≤ 100
    rw [score_char]
    exact scoreOf_le_100 (specPresentCount_le_six _) _

/-- C2: the status is determined exactly by the high-severity violation
count, the average confidence over present fields, and the present count:
with no high-severity violation the label is approved when the average
confidence exceeds 0.7 and needs review otherwise; with at least one
high-severity violation it needs review when at least five of the six
mandatory fields are present and fails otherwise. -/
theorem C2_status_classification (raw : FieldId → RawValue)
    (pn : RawValue) (cIn : FieldId → Option ℚ) :
    (createNormalizedLabel raw pn cIn).status
      = (if ((createNormalizedLabel raw pn cIn).violations.filter
              fun v => v.severity == "high").length = 0 then
          (if specAvgConfidence (createNormalizedLabel raw pn cIn).fields
                (createNormalizedLabel raw pn cIn).fieldConfidences > 7/10
            then "approved" else "needs_review")
        else if 5 ≤ specPresentCount (createNormalizedLabel raw pn cIn).fields
          then "needs_review" else "failed") := by
  show codeStatus (labelVals raw) (labelConf raw cIn) (codeViolations raw cIn)
    = (if ((codeViolations raw cIn).filter
            fun v => v.severity == "high").length = 0 then
        (if specAvgConfidence (labelVals raw) (labelConf raw cIn) > 7/10
          then "approved" else "needs_review")
      else if 5 ≤ specPresentCount (labelVals raw)
        then "needs_review" else "failed")
  unfold codeStatus
  rw [codeAvg_eq, codePresentFields_eq, all_length_cast]
  rcases Nat.eq_zero_or_pos
      (((codeViolations raw cIn).filter fun v => v.severity == "high").length)
    with hz | hp
  · rw [if_pos hz, if_pos hz]
  · rw [if_neg (Nat.pos_iff_ne_zero.mp hp), if_neg (Nat.pos_iff_ne_zero.mp hp)]
    rw [if_congr (present_ge_42_iff (specPresentCount (labelVals raw))) rfl rfl]

/-! ## Violation-list lemmas -/

/-- The per-field violation chunk, characterized by the sanitized value. -/
theorem pmf_fviols (f : FieldId) (r : RawValue) (c : Option ℚ) :
    (processMandatoryField f r c).fviolations
      = match sanitizeValue f r with
        | none => [missingViolation f]
        | some v => if validationOf f v then [] else [formatViolation f v] := by
  cases h : sanitizeValue f r with
  | none => rw [pmf_none c h]
  | some v =>
    by_cases hval : validationOf f v
    · rw [pmf_valid c h hval]
      simp [hval]
    · have hval' : validationOf f v = false := by rwa [Bool.not_eq_true] at hval
      rw [pmf_invalid c h hval']
      simp [hval']

theorem filter_flatMap (l : List α) (F : α → List β) (p : β → Bool) :
    (l.flatMap F).filter p = l.flatMap fun a => (F a).filter p := by
  induction l with
  | nil => rfl
  | cons a t ih => simp only [List.flatMap_cons, List.filter_append, ih]

theorem flatMap_eq_nil_of (l : List α) (G : α → List β)
    (h : ∀ g ∈ l, G g = []) : l.flatMap G = [] := by
  induction l with
  | nil => rfl
  | cons a t ih =>
    rw [List.flatMap_cons, h a (by simp), List.nil_append]
    exact ih fun g hg => h g (by simp [hg])

theorem flatMap_eq_of_single (l : List α) [DecidableEq α] (f0 : α)
    (G : α → List β) (h : ∀ g, g ≠ f0 → G g = []) (hc : l.count f0 = 1) :
    l.flatMap G = G f0 := by
  induction l with
  | nil => simp at hc
  | cons a t ih =>
    rw [List.count_cons] at hc
    by_cases ha : a = f0
    · subst ha
      simp only [beq_self_eq_true, if_true] at hc
      have ht : t.count a = 0 := by omega
      rw [List.count_eq_zero] at ht
      rw [List.flatMap_cons, flatMap_eq_nil_of t G, List.append_nil]
      intro g hg
      exact h g (fun he => ht (he ▸ hg))
    · have hb : (a == f0) = false := beq_eq_false_iff_ne.mpr ha
      rw [hb] at hc
      simp only [Bool.false_eq_true, if_false, Nat.add_zero] at hc
      rw [List.flatMap_cons, h a ha, List.nil_append]
      exact ih hc

theorem count_all_one (f : FieldId) : FieldId.all.count f = 1 := by
  cases f <;> decide

/-- C6: a field carries a missing violation exactly when that (mandatory)
field's normalized value is null — then exactly one, and it is of high
severity with type missing; conversely every missing violation in the list
is high-severity and points at a null field.  (Violations are only ever
created for the six mandatory fields, which the `Violation.field` type makes
structural.) -/
theorem C6_missing_violation_iff_null (raw : FieldId → RawValue)
    (pn : RawValue) (cIn : FieldId → Option ℚ) (f : FieldId) :
    ((createNormalizedLabel raw pn cIn).violations.filter
          fun v => v.field == f && v.vtype == "missing")
        = (if (createNormalizedLabel raw pn cIn).fields f = none
           then [missingViolation f] else [])
      ∧ ((createNormalizedLabel raw pn cIn).violations.filter
          fun v => v.vtype == "missing").all
          (fun v => v.severity == "high"
            && ((createNormalizedLabel raw pn cIn).fields v.field).isNone)
        = true := by
  constructor
  · show ((codeViolations raw cIn).filter
        fun v => v.field == f && v.vtype == "missing")
      = (if labelVals raw f = none then [missingViolation f] else [])
    unfold codeViolations
    rw [filter_flatMap]
    rw [flatMap_eq_of_single FieldId.all f _ ?hzero (count_all_one f)]
    case hzero =>
      intro g hg
      rw [pmf_fviols]
      cases hval : sanitizeValue g (raw g) with
      | none => simp [missingViolation, hg]
      | some v =>
        by_cases hv : validationOf g v
        · simp [hv]
        · simp [hv, formatViolation]
    rw [pmf_fviols]
    show _ = (if sanitizeValue f (raw f) = none then [missingViolation f] else [])
    cases hval : sanitizeValue f (raw f) with
    | none => simp [missingViolation]
    | some v =>
      by_cases hv : validationOf f v
      · simp [hv]
      · simp [hv, formatViolation]
  · show ((codeViolations raw cIn).filter fun v => v.vtype == "missing").all
        (fun v => v.severity == "high" && (labelVals raw v.field).isNone) = true
    rw [List.all_eq_true]
    intro v hv
    rw [List.mem_filter] at hv
    obtain ⟨hmem, htype⟩ := hv
    unfold codeViolations at hmem
    rw [List.mem_flatMap] at hmem
    obtain ⟨g, -, hvg⟩ := hmem
    rw [pmf_fviols] at hvg
    cases hval : sanitizeValue g (raw g) with
    | none =>
      rw [hval] at hvg
      simp only [List.mem_singleton] at hvg
      subst hvg
      show (_ && (labelVals raw g).isNone) = true
      show (_ && (sanitizeValue g (raw g)).isNone) = true
      rw [hval]
      rfl
    | some w =>
      rw [hval] at hvg
      dsimp only at hvg
      by_cases hvw : validationOf g w
      · rw [if_pos hvw] at hvg
        simp at hvg
      · rw [if_neg hvw] at hvg
        simp only [List.mem_singleton] at hvg
        subst hvg
        simp [formatViolation] at htype

/-! ## Ordering of the violations list -/

theorem pmf_fviol_field (f : FieldId) (r : RawValue) (c : Option ℚ) :
    ∀ v ∈ (processMandatoryField f r c).fviolations, v.field = f := by
  intro v hv
  rw [pmf_fviols] at hv
  cases h : sanitizeValue f r with
  | none =>
    rw [h] at hv
    simp only [List.mem_singleton] at hv
    rw [hv]
    rfl
  | some w =>
    rw [h] at hv
    dsimp only at hv
    by_cases hvw : validationOf f w
    · rw [if_pos hvw] at hv
      simp at hv
    · rw [if_neg hvw] at hv
      simp only [List.mem_singleton] at hv
      rw [hv]
      rfl

theorem pairwise_flatMap (l : List FieldId) (F : FieldId → List Violation)
    (R : Violation → Violation → Prop)
    (hl : l.Pairwise fun a b => ∀ v w, v ∈ F a → w ∈ F b → R v w)
    (hintra : ∀ a ∈ l, (F a).Pairwise R) :
    (l.flatMap F).Pairwise R := by
  induction l with
  | nil => exact List.Pairwise.nil
  | cons a t ih =>
    rw [List.flatMap_cons]
    rw [List.pairwise_cons] at hl
    apply List.pairwise_append.mpr
    refine ⟨hintra a (by simp), ih hl.2 (fun b hb => hintra b (by simp [hb])), ?_⟩
    intro v hv w hw
    rw [List.mem_flatMap] at hw
    obtain ⟨b, hb, hwb⟩ := hw
    exact hl.1 b hb v w hv hwb

theorem pmf_fviols_pairwise (f : FieldId) (r : RawValue) (c : Option ℚ)
    (R : Violation → Violation → Prop) :
    (processMandatoryField f r c).fviolations.Pairwise R := by
  rw [pmf_fviols]
  cases h : sanitizeValue f r with
  | none => exact List.pairwise_singleton _ _
  | some w =>
    dsimp only
    by_cases hvw : validationOf f w
    · rw [if_pos hvw]; exact List.Pairwise.nil
    · rw [if_neg hvw]; exact List.pairwise_singleton _ _

/-- C8 (amended): the violations list is emitted in the declaration order of
the mandatory-field schema — at most one violation per field, with the
per-field index strictly increasing along the list. -/
theorem C8_amended_field_order (raw : FieldId → RawValue)
    (pn : RawValue) (cIn : FieldId → Option ℚ) :
    (createNormalizedLabel raw pn cIn).violations.Pairwise
      fun v w => fieldIdx v.field < fieldIdx w.field := by
  show (codeViolations raw cIn).Pairwise _
  unfold codeViolations
  apply pairwise_flatMap
  · have hall : FieldId.all.Pairwise fun a b => fieldIdx a < fieldIdx b := by
      decide
    apply List.Pairwise.imp_of_mem ?_ hall
    intro a b _ _ hab v w hv hw
    rw [pmf_fviol_field _ _ _ v hv, pmf_fviol_field _ _ _ w hw]
    exact hab
  · intro a _
    exact pmf_fviols_pairwise a _ _ _

/-- Severity rank: high above medium above low. -/
def sevRank (s : String) : Nat :=
  if s == "high" then 2 else if s == "medium" then 1 else 0

/-- Alphabetical (code-unit) order of the six mandatory field names. -/
def alphaIdx : FieldId → Nat
  | .MRP => 0
  | .consumer_care => 1
  | .country_of_origin => 2
  | .date_of_manufacture => 3
  | .manufacturer => 4
  | .net_quantity => 5

/-- The ordering the claim asserts: severity descending, then field name
ascending. -/
def claimedViolationOrder (v w : Violation) : Prop :=
  sevRank w.severity < sevRank v.severity ∨
    (sevRank v.severity = sevRank w.severity ∧ alphaIdx v.field ≤ alphaIdx w.field)

instance (v w : Violation) : Decidable (claimedViolationOrder v w) := by
  unfold claimedViolationOrder
  exact instDecidableOr

/-- The counterexample input for C8: a manufacturer value that is
kept but fails validation (a format/medium violation) while every other
mandatory field is missing (missing/high violations after it). -/
def c8raw : FieldId → RawValue := fun f =>
  match f with
  | .manufacturer => .vstr "ab"
  | _ => .vnull

/-- C8 (counterexample): on `c8raw` the violations list starts with the
manufacturer format violation of medium severity followed by a high-severity
missing violation, so it is not ordered severity-descending (with field-name
tiebreak) as claimed. -/
theorem C8_counterexample :
    ¬ (createNormalizedLabel c8raw .vnull fun _ => none).violations.Pairwise
        claimedViolationOrder := by
  decide

/-! ## Non-string raw candidates -/

theorem filter_field_chunk (g f : FieldId) (r : RawValue) (c : Option ℚ) :
    ((processMandatoryField g r c).fviolations.filter fun v => v.field == f)
      = if g = f then (processMandatoryField g r c).fviolations else [] := by
  by_cases hg : g = f
  · subst hg
    rw [if_pos rfl]
    apply List.filter_eq_self.mpr
    intro v hv
    rw [pmf_fviol_field _ _ _ v hv]
    exact beq_self_eq_true g
  · rw [if_neg hg]
    apply List.filter_eq_nil_iff.mpr
    intro v hv
    rw [pmf_fviol_field _ _ _ v hv]
    simp [hg]

theorem asTruthyString_of_nonstring {r : RawValue} (h : r.isStr = false) :
    r.asTruthyString = none := by
  cases r with
  | vstr s => simp [RawValue.isStr] at h
  | vnum q => rfl
  | vbool b => rfl
  | vnull => rfl
  | vundef => rfl

theorem sanitizeValue_of_nonstring (f : FieldId) {r : RawValue}
    (h : r.isStr = false) : sanitizeValue f r = none := by
  unfold sanitizeValue
  rw [asTruthyString_of_nonstring h]

/-- C10: a non-string raw candidate (for example a numeric JSON-LD price) is
nulled without trimming, sentinel suppression or validation: the field comes
out null with its confidence untouched and exactly one violation, the
missing/high one — and the same nulling applies to the supplemental
product name. -/
theorem C10_nonstring_candidate (raw : FieldId → RawValue) (pn : RawValue)
    (cIn : FieldId → Option ℚ) (f : FieldId) :
    ((raw f).isStr = false →
      (createNormalizedLabel raw pn cIn).fields f = none
      ∧ (createNormalizedLabel raw pn cIn).fieldConfidences f
          = confDefault (cIn f)
      ∧ ((createNormalizedLabel raw pn cIn).violations.filter
          fun v => v.field == f) = [missingViolation f])
    ∧ (pn.isStr = false →
        (createNormalizedLabel raw pn cIn).product_name = none) := by
  constructor
  · intro hstr
    have hsv : sanitizeValue f (raw f) = none :=
      sanitizeValue_of_nonstring f hstr
    refine ⟨hsv, ?_, ?_⟩
    · show (processMandatoryField f (raw f) (cIn f)).confidence = confDefault (cIn f)
      rw [pmf_none _ hsv]
    · show ((codeViolations raw cIn).filter fun v => v.field == f)
        = [missingViolation f]
      unfold codeViolations
      rw [filter_flatMap]
      rw [flatMap_eq_of_single FieldId.all f _ ?hz (count_all_one f)]
      case hz =>
        intro g hg
        rw [filter_field_chunk, if_neg hg]
      rw [filter_field_chunk, if_pos rfl, pmf_none _ hsv]
  · intro hstr
    show sanitizeSupplemental pn = none
    unfold sanitizeSupplemental
    rw [asTruthyString_of_nonstring hstr]

/-- The concrete input for the C10 witness: a numeric MRP candidate and a
numeric product name, everything else absent. -/
def c10raw : FieldId → RawValue := fun f =>
  match f with
  | .MRP => .vnum 45
  | _ => .vnull

/-- Witness for C10 at the numeric-MRP input. -/
theorem C10_witness :
    (createNormalizedLabel c10raw (.vnum 7) fun _ => none).fields .MRP = none
    ∧ (createNormalizedLabel c10raw (.vnum 7) fun _ => none).fieldConfidences
        .MRP = confDefault none
    ∧ ((createNormalizedLabel c10raw (.vnum 7) fun _ => none).violations.filter
        fun v => v.field == FieldId.MRP) = [missingViolation .MRP]
    ∧ (createNormalizedLabel c10raw (.vnum 7) fun _ => none).product_name
        = none := by
  obtain ⟨h1, h2⟩ :=
    C10_nonstring_candidate c10raw (.vnum 7) (fun _ => none) .MRP
  obtain ⟨ha, hb, hc⟩ := h1 (by decide)
  exact ⟨ha, hb, hc, h2 (by decide)⟩

/-! ## Monotonicity of the score in field presence -/

theorem filter_update_length (l : List FieldId) (p p' : FieldId → Bool)
    (f0 : FieldId) (hne : ∀ g, g ≠ f0 → p' g = p g) (hp' : p' f0 = true)
    (hp : p f0 = false) :
    (l.filter p').length = (l.filter p).length + l.count f0 := by
  induction l with
  | nil => rfl
  | cons a t ih =>
    by_cases ha : a = f0
    · subst ha
      rw [List.filter_cons, List.filter_cons, List.count_cons, hp', hp]
      rw [if_pos rfl, if_neg (by simp), beq_self_eq_true, if_pos rfl]
      rw [List.length_cons, ih]
      omega
    · have hb : (a == f0) = false := beq_eq_false_iff_ne.mpr ha
      rw [List.filter_cons, List.filter_cons, List.count_cons, hne a ha, hb,
        if_neg (show ¬(false = true) by simp)]
      by_cases hpa : p a
      · rw [if_pos hpa, if_pos hpa, List.length_cons, List.length_cons, ih]
        omega
      · rw [if_neg hpa, if_neg hpa, ih]
        omega

theorem filter_update_map_sum (l : List FieldId) (p p' : FieldId → Bool)
    (cv cv' : FieldId → ℚ) (f0 : FieldId)
    (hne : ∀ g, g ≠ f0 → p' g = p g) (hcne : ∀ g, g ≠ f0 → cv' g = cv g)
    (hp' : p' f0 = true) (hp : p f0 = false) :
    ((l.filter p').map cv').sum
      = ((l.filter p).map cv).sum + (l.count f0 : ℚ) * cv' f0 := by
  induction l with
  | nil => simp
  | cons a t ih =>
    by_cases ha : a = f0
    · subst ha
      rw [List.filter_cons, List.filter_cons, List.count_cons, hp', hp]
      rw [if_pos rfl, if_neg (by simp), beq_self_eq_true, if_pos rfl]
      rw [List.map_cons, List.sum_cons, ih]
      push_cast
      ring
    · have hb : (a == f0) = false := beq_eq_false_iff_ne.mpr ha
      rw [List.filter_cons, List.filter_cons, List.count_cons, hne a ha, hb,
        if_neg (show ¬(false = true) by simp)]
      by_cases hpa : p a
      · rw [if_pos hpa, if_pos hpa, List.map_cons, List.sum_cons,
          List.map_cons, List.sum_cons, ih, hcne a ha]
        push_cast
        ring
      · rw [if_neg hpa, if_neg hpa, ih]
        push_cast
        ring

theorem listSum_nonneg (l : List ℚ) (h : ∀ x ∈ l, 0 ≤ x) : 0 ≤ l.sum := by
  induction l with
  | nil => norm_num
  | cons a t ih =>
    rw [List.sum_cons]
    have ha := h a (by simp)
    have ht := ih fun x hx => h x (by simp [hx])
    linarith

theorem listSum_le_length (l : List ℚ) (h : ∀ x ∈ l, x ≤ 1) :
    l.sum ≤ (l.length : ℚ) := by
  induction l with
  | nil => norm_num
  | cons a t ih =>
    rw [List.sum_cons, List.length_cons]
    have ha := h a (by simp)
    have ht := ih fun x hx => h x (by simp [hx])
    push_cast
    linarith

theorem confDefault_mem (c : Option ℚ)
    (h : ∀ q, c = some q → 0 ≤ q ∧ q ≤ 1) :
    0 ≤ confDefault c ∧ confDefault c ≤ 1 := by
  cases c with
  | none => norm_num [confDefault]
  | some x =>
    obtain ⟨h0, h1⟩ := h x rfl
    unfold confDefault
    dsimp only
    split_ifs with hx
    · norm_num
    · exact ⟨h0, h1⟩

theorem labelConf_mem (raw : FieldId → RawValue) (cIn : FieldId → Option ℚ)
    (hconf : ∀ g q, cIn g = some q → 0 ≤ q ∧ q ≤ 1) (g : FieldId) :
    0 ≤ labelConf raw cIn g ∧ labelConf raw cIn g ≤ 1 := by
  obtain ⟨h0, h1⟩ := confDefault_mem (cIn g) fun q hq => hconf g q hq
  unfold labelConf
  cases hsv : sanitizeValue g (raw g) with
  | none => rw [pmf_none _ hsv]; exact ⟨h0, h1⟩
  | some w =>
    by_cases hvw : validationOf g w
    · rw [pmf_valid _ hsv hvw]; exact ⟨h0, h1⟩
    · have hvw' : validationOf g w = false := by rwa [Bool.not_eq_true] at hvw
      rw [pmf_invalid _ hsv hvw']
      show 0 ≤ jsMaxQ 0 (confDefault (cIn g) - 3/10)
        ∧ jsMaxQ 0 (confDefault (cIn g) - 3/10) ≤ 1
      rw [jsMaxQ_eq]
      refine ⟨le_max_left 0 _, max_le (by norm_num) (by linarith)⟩

/-- One step of the score in terms of present count and confidence sum:
adding a present field with a confidence in [0, 1] cannot lower the score. -/
theorem scoreOf_step (p : Nat) (S c : ℚ) (hS0 : 0 ≤ S) (hSp : S ≤ (p : ℚ))
    (hc0 : 0 ≤ c) (hc1 : c ≤ 1) :
    scoreOf p (if p = 0 then 0 else S / (p : ℚ))
      ≤ scoreOf (p + 1) ((S + c) / ((p : ℚ) + 1)) := by
  apply max_le_max le_rfl
  apply jsRound_mono
  have hkey : penQ ((S + c) / ((p : ℚ) + 1))
      - penQ (if p = 0 then 0 else S / (p : ℚ)) ≤ 100/6 := by
    by_cases hp : p = 0
    · subst hp
      rw [if_pos rfl]
      have hS : S = 0 := le_antisymm (by exact_mod_cast hSp) hS0
      have hz : penQ 0 = 18 := by norm_num [penQ]
      have ha' : (0:ℚ) ≤ (S + c) / ((0 : ℕ) + 1 : ℚ) := by
        rw [hS]
        push_cast
        simpa using hc0
      have := penQ_le_18 ha'
      rw [hz]
      linarith
    · rw [if_neg hp]
      have hp1 : (1 : ℚ) ≤ (p : ℚ) := by
        exact_mod_cast Nat.one_le_iff_ne_zero.mpr hp
      have h2 : (0:ℚ) < (p : ℚ) := by linarith
      have h3 : (0:ℚ) < (p : ℚ) + 1 := by linarith
      have hdiff : S / (p : ℚ) - (S + c) / ((p : ℚ) + 1) ≤ 1/2 := by
        rw [div_sub_div _ _ (ne_of_gt h2) (ne_of_gt h3), div_le_iff₀ (by positivity)]
        nlinarith
      have hlip := penQ_diff_le (S / (p : ℚ)) ((S + c) / ((p : ℚ) + 1))
      have hmax : max 0 (S / (p : ℚ) - (S + c) / ((p : ℚ) + 1)) ≤ 1/2 :=
        max_le (by norm_num) hdiff
      linarith
  push_cast
  linarith

theorem labelVals_update_ne (raw : FieldId → RawValue) (f0 : FieldId)
    (r : RawValue) (g : FieldId) (h : g ≠ f0) :
    labelVals (Function.update raw f0 r) g = labelVals raw g := by
  unfold labelVals
  rw [Function.update_noteq h]

theorem labelConf_update_ne (raw : FieldId → RawValue) (cIn : FieldId → Option ℚ)
    (f0 : FieldId) (r : RawValue) (g : FieldId) (h : g ≠ f0) :
    labelConf (Function.update raw f0 r) cIn g = labelConf raw cIn g := by
  unfold labelConf
  rw [Function.update_noteq h]

/-- C5: with all supplied confidences in [0, 1], turning one absent mandatory
field into a present value that passes its validation pattern never lowers
the compliance score. -/
theorem C5_score_monotonicity (raw : FieldId → RawValue) (pn : RawValue)
    (cIn : FieldId → Option ℚ) (f0 : FieldId) (s v : String)
    (hconf : ∀ g q, cIn g = some q → 0 ≤ q ∧ q ≤ 1)
    (habsent : (createNormalizedLabel raw pn cIn).fields f0 = none)
    (hnew : sanitizeValue f0 (.vstr s) = some v)
    (hvalid : validationOf f0 v = true) :
    (createNormalizedLabel raw pn cIn).compliance_score
      ≤ (createNormalizedLabel (Function.update raw f0 (.vstr s)) pn
          cIn).compliance_score := by
  have habs : labelVals raw f0 = none := habsent
  set raw' := Function.update raw f0 (.vstr s) with hraw'
  have hval' : labelVals raw' f0 = some v := by
    unfold labelVals
    rw [hraw', Function.update_same]
    exact hnew
  have hc' : labelConf raw' cIn f0 = confDefault (cIn f0) := by
    unfold labelConf
    have : sanitizeValue f0 (raw' f0) = some v := by
      rw [hraw', Function.update_same]; exact hnew
    rw [pmf_valid _ this hvalid]
  -- present counts
  have hcount : specPresentCount (labelVals raw')
      = specPresentCount (labelVals raw) + 1 := by
    unfold specPresentCount specPresentList
    rw [filter_update_length FieldId.all _ _ f0 ?hne ?hpos ?hneg,
      count_all_one f0]
    case hne =>
      intro g hg
      rw [labelVals_update_ne raw f0 _ g hg]
    case hpos => rw [hval']; rfl
    case hneg => rw [habs]; rfl
  -- confidence sums
  have hsum : ((specPresentList (labelVals raw')).map (labelConf raw' cIn)).sum
      = ((specPresentList (labelVals raw)).map (labelConf raw cIn)).sum
        + confDefault (cIn f0) := by
    unfold specPresentList
    rw [filter_update_map_sum FieldId.all _ _ _ _ f0 ?hne2 ?hcne ?hpos2 ?hneg2,
      count_all_one f0, hc']
    · push_cast; ring
    case hne2 =>
      intro g hg
      rw [labelVals_update_ne raw f0 _ g hg]
    case hcne =>
      intro g hg
      exact labelConf_update_ne raw cIn f0 _ g hg
    case hpos2 => rw [hval']; rfl
    case hneg2 => rw [habs]; rfl
  -- average confidences in the spec form
  set p := specPresentCount (labelVals raw) with hpdef
  set S := ((specPresentList (labelVals raw)).map (labelConf raw cIn)).sum
    with hSdef
  have havg : specAvgConfidence (labelVals raw) (labelConf raw cIn)
      = if p = 0 then 0 else S / (p : ℚ) := by
    unfold specAvgConfidence
    rfl
  have havg' : specAvgConfidence (labelVals raw') (labelConf raw' cIn)
      = (S + confDefault (cIn f0)) / ((p : ℚ) + 1) := by
    unfold specAvgConfidence
    rw [hcount, hsum]
    rw [if_neg (Nat.succ_ne_zero p)]
    push_cast
    ring_nf
  -- sum bounds
  have hlenS : ((specPresentList (labelVals raw)).map (labelConf raw cIn)).length
      = p := by rw [List.length_map]; rfl
  have hS0 : 0 ≤ S := by
    apply listSum_nonneg
    intro x hx
    rw [List.mem_map] at hx
    obtain ⟨g, -, rfl⟩ := hx
    exact (labelConf_mem raw cIn hconf g).1
  have hSp : S ≤ (p : ℚ) := by
    have := listSum_le_length
      ((specPresentList (labelVals raw)).map (labelConf raw cIn)) ?ub
    · rwa [hlenS] at this
    case ub =>
      intro x hx
      rw [List.mem_map] at hx
      obtain ⟨g, -, rfl⟩ := hx
      exact (labelConf_mem raw cIn hconf g).2
  obtain ⟨hc0, hc1⟩ := confDefault_mem (cIn f0) fun q hq => hconf f0 q hq
  show codeComplianceScore (labelVals raw) (labelConf raw cIn)
    ≤ codeComplianceScore (labelVals raw') (labelConf raw' cIn)
  rw [score_char, score_char, hcount, havg, havg']
  exact scoreOf_step p S (confDefault (cIn f0)) hS0 hSp hc0 hc1

/-- Witness for C5: turning the absent manufacturer into a valid present
value on an otherwise empty label raises the score from 0 to 14. -/
theorem C5_witness :
    (createNormalizedLabel (fun _ => RawValue.vnull) .vnull fun _ => none).fields
        .manufacturer = none
    ∧ sanitizeValue .manufacturer (.vstr "Acme Corporation Pvt Ltd")
        = some "Acme Corporation Pvt Ltd"
    ∧ validationOf .manufacturer "Acme Corporation Pvt Ltd" = true
    ∧ (createNormalizedLabel (fun _ => RawValue.vnull) .vnull
          fun _ => none).compliance_score
        ≤ (createNormalizedLabel
            (Function.update (fun _ => RawValue.vnull) .manufacturer
              (.vstr "Acme Corporation Pvt Ltd")) .vnull
            fun _ => none).compliance_score :=
  ⟨by decide, by decide, by decide,
    C5_score_monotonicity (fun _ => RawValue.vnull) .vnull (fun _ => none)
      .manufacturer "Acme Corporation Pvt Ltd" "Acme Corporation Pvt Ltd"
      (fun _ q h => nomatch h) (by decide) (by decide) (by decide)⟩

/-! ## Re-normalization (idempotence) -/

/-- The raw field map obtained by feeding a label's normalized values back
into the normalizer. -/
def feedbackRaw (L : NormalizedLabel) : FieldId → RawValue := fun f =>
  match L.fields f with
  | some v => .vstr v
  | none => .vnull

/-- The supplemental value fed back. -/
def feedbackPN (L : NormalizedLabel) : RawValue :=
  match L.product_name with
  | some v => .vstr v
  | none => .vnull

/-- The per-field confidences fed back. -/
def feedbackConf (L : NormalizedLabel) : FieldId → Option ℚ := fun f =>
  some (L.fieldConfidences f)

/-- Running the normalizer again on its own output. -/
def renormalize (L : NormalizedLabel) : NormalizedLabel :=
  createNormalizedLabel (feedbackRaw L) (feedbackPN L) (feedbackConf L)

/-- Is a raw value a string that needs no truncation for limit `n`? -/
def rawFits (n : Nat) : RawValue → Bool
  | .vstr s => (jsTrim s).toList.length ≤ n
  | _ => true

theorem confDefault_ne_zero (c : Option ℚ) : confDefault c ≠ 0 := by
  cases c with
  | none => norm_num [confDefault]
  | some x =>
    unfold confDefault
    dsimp only
    split_ifs with hx
    · norm_num
    · exact hx

theorem confDefault_idem (c : Option ℚ) :
    confDefault (some (confDefault c)) = confDefault c := by
  show (if confDefault c = 0 then 1/2 else confDefault c) = confDefault c
  rw [if_neg (confDefault_ne_zero c)]

theorem sanitizeValue_not_sentinel {f : FieldId} {r : RawValue} {v : String}
    (h : sanitizeValue f r = some v) : isSentinelValue v = false := by
  unfold sanitizeValue at h
  cases hr : r.asTruthyString with
  | none => rw [hr] at h; cases h
  | some s =>
    rw [hr] at h
    dsimp only at h
    by_cases hs : isSentinelValue (truncateStr (maxLengthOf f) (jsTrim s))
    · rw [if_pos hs] at h; cases h
    · rw [if_neg hs] at h
      rw [← Option.some.inj h]
      rwa [Bool.not_eq_true] at hs

/-- Under the no-truncation hypothesis a sanitized value is ready: it is
fully trimmed, within the length limit, and sanitizing it again returns it
unchanged. -/
theorem sanitizeValue_fixed {f : FieldId} {r : RawValue} {v : String}
    (hfit : rawFits (maxLengthOf f) r = true) (h : sanitizeValue f r = some v) :
    sanitizeValue f (.vstr v) = some v := by
  obtain ⟨hne, -, -, -⟩ := sanitizeValue_some h
  have hsent : isSentinelValue v = false := sanitizeValue_not_sentinel h
  have hveq : jsTrim v = v ∧ v.toList.length ≤ maxLengthOf f := by
    unfold sanitizeValue at h
    cases hr : r.asTruthyString with
    | none => rw [hr] at h; cases h
    | some s =>
      rw [hr] at h
      dsimp only at h
      by_cases hs : isSentinelValue (truncateStr (maxLengthOf f) (jsTrim s))
      · rw [if_pos hs] at h; cases h
      · rw [if_neg hs] at h
        have hrs : r = .vstr s := by
          cases r with
          | vstr t =>
            unfold RawValue.asTruthyString at hr
            dsimp only at hr
            by_cases ht : t == ""
            · rw [if_pos ht] at hr; cases hr
            · rw [if_neg ht] at hr
              rw [Option.some.inj hr]
          | vnum q => cases hr
          | vbool b => cases hr
          | vnull => cases hr
          | vundef => cases hr
        have hlen : (jsTrim s).toList.length ≤ maxLengthOf f := by
          rw [hrs] at hfit
          simpa [rawFits] using hfit
        have htr : truncateStr (maxLengthOf f) (jsTrim s) = jsTrim s := by
          unfold truncateStr
          rw [List.take_of_length_le hlen]
          rfl
        rw [htr] at h
        have hv : v = jsTrim s := (Option.some.inj h).symm
        subst hv
        constructor
        · show (⟨trimL (jsTrim s).toList⟩ : String) = jsTrim s
          show (⟨trimL (trimL s.toList)⟩ : String) = ⟨trimL s.toList⟩
          rw [trimL_idem]
        · exact hlen
  obtain ⟨htrim, hlen⟩ := hveq
  unfold sanitizeValue RawValue.asTruthyString
  dsimp only
  rw [if_neg (by simpa using hne)]
  dsimp only
  rw [htrim]
  have : truncateStr (maxLengthOf f) v = v := by
    unfold truncateStr
    rw [List.take_of_length_le hlen]
    cases v
    rfl
  rw [this, hsent]
  rw [if_neg (by simp)]

theorem flatMap_congr (l : List α) (F G : α → List β)
    (h : ∀ a ∈ l, F a = G a) : l.flatMap F = l.flatMap G := by
  induction l with
  | nil => rfl
  | cons a t ih =>
    rw [List.flatMap_cons, List.flatMap_cons, h a (by simp),
      ih fun b hb => h b (by simp [hb])]

/-- The format violations recorded for one field, characterized. -/
theorem filter_format_eq (raw : FieldId → RawValue)
    (cIn : FieldId → Option ℚ) (f : FieldId) :
    ((codeViolations raw cIn).filter fun v => v.field == f && v.vtype == "format")
      = match sanitizeValue f (raw f) with
        | none => []
        | some v => if validationOf f v then [] else [formatViolation f v] := by
  unfold codeViolations
  rw [filter_flatMap]
  rw [flatMap_eq_of_single FieldId.all f _ ?hz (count_all_one f)]
  case hz =>
    intro g hg
    rw [pmf_fviols]
    cases hval : sanitizeValue g (raw g) with
    | none => simp [missingViolation, hg]
    | some v =>
      dsimp only
      by_cases hv : validationOf g v
      · rw [if_pos hv]; rfl
      · rw [if_neg hv]
        simp [formatViolation, hg]
  rw [pmf_fviols]
  cases hval : sanitizeValue f (raw f) with
  | none => simp [missingViolation]
  | some v =>
    dsimp only
    by_cases hv : validationOf f v
    · rw [if_pos hv]; rfl
    · rw [if_neg hv]
      simp [formatViolation]

theorem renorm_sanitize_eq (f : FieldId) (r : RawValue)
    (hfit : rawFits (maxLengthOf f) r = true) :
    sanitizeValue f (match sanitizeValue f r with
      | some v => RawValue.vstr v
      | none => RawValue.vnull) = sanitizeValue f r := by
  cases h : sanitizeValue f r with
  | none => rfl
  | some v => exact sanitizeValue_fixed hfit h

theorem sanitizeSupplemental_eq (r : RawValue) :
    sanitizeSupplemental r = sanitizeValue .manufacturer r := rfl

/-- C3 (amended): for inputs whose string values, once trimmed, fit within
their field's maxLength (so truncation cannot cut a value at a whitespace
boundary), re-running the normalizer on a label's own values and confidences
reproduces all field values, the supplemental product name, and the entire
violation list; the confidence of every field without a format violation is
also reproduced, while a field carrying a format violation has the 0.3
penalty applied to its confidence again. -/
theorem C3_amended_renormalization (raw : FieldId → RawValue) (pn : RawValue)
    (cIn : FieldId → Option ℚ)
    (hfit : ∀ f, rawFits (maxLengthOf f) (raw f) = true)
    (hpn : rawFits 200 pn = true) :
    (∀ f, (renormalize (createNormalizedLabel raw pn cIn)).fields f
        = (createNormalizedLabel raw pn cIn).fields f)
    ∧ (renormalize (createNormalizedLabel raw pn cIn)).product_name
        = (createNormalizedLabel raw pn cIn).product_name
    ∧ (renormalize (createNormalizedLabel raw pn cIn)).violations
        = (createNormalizedLabel raw pn cIn).violations
    ∧ ∀ f, ((createNormalizedLabel raw pn cIn).violations.filter
          fun v => v.field == f && v.vtype == "format") = []
        → (renormalize (createNormalizedLabel raw pn cIn)).fieldConfidences f
            = (createNormalizedLabel raw pn cIn).fieldConfidences f := by
  have hsan : ∀ f,
      sanitizeValue f (feedbackRaw (createNormalizedLabel raw pn cIn) f)
        = sanitizeValue f (raw f) := by
    intro f
    exact renorm_sanitize_eq f (raw f) (hfit f)
  refine ⟨?_, ?_, ?_, ?_⟩
  · intro f
    exact hsan f
  · show sanitizeSupplemental (feedbackPN (createNormalizedLabel raw pn cIn))
      = sanitizeSupplemental pn
    rw [sanitizeSupplemental_eq, sanitizeSupplemental_eq]
    exact renorm_sanitize_eq .manufacturer pn hpn
  · show codeViolations (feedbackRaw (createNormalizedLabel raw pn cIn))
        (feedbackConf (createNormalizedLabel raw pn cIn))
      = codeViolations raw cIn
    unfold codeViolations
    apply flatMap_congr
    intro f _
    rw [pmf_fviols, pmf_fviols, hsan f]
  · intro f hformat
    have hformat' : (match sanitizeValue f (raw f) with
        | none => ([] : List Violation)
        | some v => if validationOf f v then [] else [formatViolation f v])
        = [] := by
      rw [← filter_format_eq raw cIn f]
      exact hformat
    show (processMandatoryField f
        (feedbackRaw (createNormalizedLabel raw pn cIn) f)
        (some (labelConf raw cIn f))).confidence
      = labelConf raw cIn f
    cases h : sanitizeValue f (raw f) with
    | none =>
      have h2 : sanitizeValue f
          (feedbackRaw (createNormalizedLabel raw pn cIn) f) = none := by
        rw [hsan f, h]
      rw [pmf_none _ h2]
      have h1 : labelConf raw cIn f = confDefault (cIn f) := by
        unfold labelConf
        rw [pmf_none _ h]
      rw [h1]
      exact confDefault_idem (cIn f)
    | some v =>
      rw [h] at hformat'
      dsimp only at hformat'
      by_cases hv : validationOf f v
      · have h2 : sanitizeValue f
            (feedbackRaw (createNormalizedLabel raw pn cIn) f) = some v := by
          rw [hsan f, h]
        rw [pmf_valid _ h2 hv]
        have h1 : labelConf raw cIn f = confDefault (cIn f) := by
          unfold labelConf
          rw [pmf_valid _ h hv]
        rw [h1]
        exact confDefault_idem (cIn f)
      · rw [if_neg hv] at hformat'
        cases hformat'

/-- The C3 counterexample input: a manufacturer value kept with a format
violation, and a net-quantity value whose truncation at 50 characters ends
in a space. -/
def c3raw : FieldId → RawValue := fun f =>
  match f with
  | .manufacturer => .vstr "ab"
  | .net_quantity => .vstr ⟨List.replicate 49 '1' ++ [' ', 'm', 'l']⟩
  | _ => .vnull

def c3conf : FieldId → Option ℚ := fun f =>
  match f with
  | .manufacturer => some (4/5)
  | _ => none

def c3L1 : NormalizedLabel := createNormalizedLabel c3raw .vnull c3conf

def c3L2 : NormalizedLabel := renormalize c3L1

/-- C3 (counterexample): re-running the normalizer on its own output changes
the net-quantity value (the first run truncated it to a string with a
trailing space, which the second run trims), changes the manufacturer
confidence (the 0.3 format penalty is applied a second time), and changes
the violation list (the format message embeds the changed value). -/
theorem C3_counterexample :
    c3L2.fields .net_quantity ≠ c3L1.fields .net_quantity
    ∧ c3L2.fieldConfidences .manufacturer ≠ c3L1.fieldConfidences .manufacturer
    ∧ c3L2.violations ≠ c3L1.violations := by
  refine ⟨by decide, ?_, by decide⟩
  have hs1 : sanitizeValue .manufacturer (c3raw .manufacturer) = some "ab" := by
    decide
  have h1 : c3L1.fieldConfidences .manufacturer = 1/2 := by
    show (processMandatoryField .manufacturer (c3raw .manufacturer)
      (c3conf .manufacturer)).confidence = 1/2
    rw [pmf_invalid _ hs1 (by decide)]
    show jsMaxQ 0 (confDefault (some (4/5)) - 3/10) = 1/2
    rw [show confDefault (some (4/5)) = 4/5 by norm_num [confDefault]]
    rw [jsMaxQ_eq]
    norm_num
  have h2 : c3L2.fieldConfidences .manufacturer = 1/5 := by
    show (processMandatoryField .manufacturer (feedbackRaw c3L1 .manufacturer)
      (feedbackConf c3L1 .manufacturer)).confidence = 1/5
    have hfr : feedbackRaw c3L1 .manufacturer = .vstr "ab" := by decide
    have hfc : feedbackConf c3L1 .manufacturer = some (1/2) := by
      show some (c3L1.fieldConfidences .manufacturer) = some (1/2)
      rw [h1]
    rw [hfr, hfc]
    have hs2 : sanitizeValue .manufacturer (.vstr "ab") = some "ab" := by decide
    rw [pmf_invalid _ hs2 (by decide)]
    show jsMaxQ 0 (confDefault (some (1/2)) - 3/10) = 1/5
    rw [show confDefault (some (1/2)) = 1/2 by norm_num [confDefault]]
    rw [jsMaxQ_eq]
    norm_num
  rw [h1, h2]
  norm_num

/-- The C3 witness input: one clean present value, nothing truncated. -/
def c3wraw : FieldId → RawValue := fun f =>
  match f with
  | .manufacturer => .vstr "Acme Ltd"
  | _ => .vnull

def c3wL : NormalizedLabel :=
  createNormalizedLabel c3wraw (.vstr "Super Soap") fun _ => none

/-- Witness for the amended C3 at a concrete no-truncation input. -/
theorem C3_witness :
    (∀ f, rawFits (maxLengthOf f) (c3wraw f) = true)
    ∧ rawFits 200 (RawValue.vstr "Super Soap") = true
    ∧ ((∀ f, (renormalize c3wL).fields f = c3wL.fields f)
      ∧ (renormalize c3wL).product_name = c3wL.product_name
      ∧ (renormalize c3wL).violations = c3wL.violations
      ∧ ∀ f, (c3wL.violations.filter
            fun v => v.field == f && v.vtype == "format") = []
          → (renormalize c3wL).fieldConfidences f = c3wL.fieldConfidences f) :=
  ⟨by decide, by decide,
    C3_amended_renormalization c3wraw (.vstr "Super Soap") (fun _ => none)
      (by decide) (by decide)⟩

/-! ## Extractor and scraper clean-up theorems -/

unseal Rat.add Rat.sub Rat.mul Rat.inv in
/-- C4: evaluation of the extractor at the failing input.  The text contains
two matches of the price pattern; the specification's cascade would keep the
second capture "123456" (confidence 0.66), but the code re-reads only the
first match via the reset `exec` cursor, whose capture "5" is discarded as
too short, so the code returns the null extraction.  (The Rat operations are
unsealed so the evaluation can go through the kernel.) -/
theorem C4_exec_reads_first_match_only :
    extractField "price: 5 price: 123456" "mrp_inclusive"
        = ⟨none, 0⟩
    ∧ (jsMatchAll mrpP1 "price: 5 price: 123456").map Prod.snd
        = [some "5", some "123456"]
    ∧ specExtractFieldAllMatches "price: 5 price: 123456" "mrp_inclusive"
        = ⟨some "123456", 33/50⟩ := by
  decide

/-- C9 (counterexample): calling the extractor with a field name that is not
in the pattern table does not fail — it returns the ordinary null result
`{value: null, confidence: 0}`. -/
theorem C9_counterexample :
    FIELD_PATTERNS.lookup "consumer_details" = none
    ∧ extractField "Customer care: 1800 11 2233" "consumer_details"
        = ⟨none, 0⟩ := by
  constructor
  · rfl
  · rfl

/-- C9 (amended): an unrecognized field name falls back to the empty pattern
list (`FIELD_PATTERNS[fieldName] || []`), so the extractor returns
`{value: null, confidence: 0}` instead of raising. -/
theorem C9_amended_unknown_field_returns_null (text fname : String)
    (h : FIELD_PATTERNS.lookup fname = none) :
    extractField text fname = ⟨none, 0⟩ := by
  unfold extractField
  rw [h]
  rfl

/-- Witness for the amended C9. -/
theorem C9_witness :
    FIELD_PATTERNS.lookup "bogus_field" = none
    ∧ extractField "MRP: ₹ 99" "bogus_field" = ⟨none, 0⟩ :=
  ⟨rfl, C9_amended_unknown_field_returns_null "MRP: ₹ 99" "bogus_field" rfl⟩

/-- C7: evaluation of the scrape clean-up at the failing input.  A
150-character manufacturer string is cut to 100 characters, although the
schema maxLength for the manufacturer field is 200 — truncating to the
schema limit would have left the string unchanged. -/
theorem C7_manufacturer_truncated_to_100 :
    (scrapeCleanup .vnull .vnull .vnull (.vstr ⟨List.replicate 150 'a'⟩)
        .vnull).manufacturer
      = .vstr ⟨List.replicate 100 'a'⟩
    ∧ maxLengthOf .manufacturer = 200
    ∧ truncateStr (maxLengthOf .manufacturer) ⟨List.replicate 150 'a'⟩
        = ⟨List.replicate 150 'a'⟩
    ∧ (scrapeCleanup .vnull .vnull .vnull (.vstr ⟨List.replicate 150 'a'⟩)
        .vnull).manufacturer
      ≠ .vstr (truncateStr (maxLengthOf .manufacturer)
          ⟨List.replicate 150 'a'⟩) := by
  refine ⟨by decide, by decide, by decide, by decide⟩
